import Mathlib

/-!
# Watchdog timers (`include/timers.h`) and kernel diagnostics (`kernel/utility.c`)

A shallow embedding of the two source files.

* C integers are mathematical integers; where a C operation can leave the range
  of its type the result is reduced explicitly modulo `2 ^ width`.
* Pointers to timers are addresses (`Nat`), `NULL` is `none`, and the timer
  store is a map from addresses to `timer` records.
* A C string is the list of the `char` values of the object it lives in,
  terminator included.  Reading beyond the end of that list is a fault.
* A `char` is kept as the `int` it promotes to.  Where `char` is a signed type,
  as on the i386 target, the byte `0xFF` is the value `-1`.
* Effects on the outside world (`send_sig`, `prepare_shutdown`) and the stores
  into the message buffer are recorded, in order, in a trace.
-/

namespace Minix

/-! ## Configuration taken from headers outside the two source files -/

/-- Constants and type sizes that `timers.h` and `utility.c` take from headers
that are not among the sources (`limits.h`, `sys/types.h`, `kernel.h`,
`minix/com.h`, `signal.h`, `unistd.h`). -/
structure Config where
  /-- whether plain `char` is a signed type -/
  char_signed : Bool
  /-- sizeof(int) in bytes -/
  sizeof_int : Nat
  /-- sizeof(long) in bytes -/
  sizeof_long : Nat
  /-- whether `clock_t` is a signed type -/
  clock_signed : Bool
  /-- sizeof(clock_t) in bytes -/
  sizeof_clock : Nat
  KMESS_BUF_SIZE : Int
  OUTPUT_PROC_NR : Int
  SIGKMESS : Int
  NO_NUM : Int
  RBT_PANIC : Int

/-- A configuration of the 32 bit kernel: `char` is signed, `int`, `long` and
`clock_t` (a `long`) take four bytes; the remaining constants are
representative values. -/
def minix_i386 : Config :=
  { char_signed := true, sizeof_int := 4, sizeof_long := 4, clock_signed := true, sizeof_clock := 4,
    KMESS_BUF_SIZE := 256, OUTPUT_PROC_NR := 4, SIGKMESS := 29,
    NO_NUM := 0x8000, RBT_PANIC := 2 }

/-- Reduction of an integer into the range of a signed type of `w` bits. -/
def wrap_signed (w : Nat) (x : Int) : Int :=
  (x + 2 ^ (w - 1)) % 2 ^ w - 2 ^ (w - 1)

/-- Reduction of an integer into the range of an unsigned type of `w` bits. -/
def wrap_unsigned (w : Nat) (x : Int) : Int :=
  x % 2 ^ w

/-- The values a `char` (8 bits) can hold. -/
def is_char (C : Config) (c : Int) : Prop :=
  if C.char_signed then -128 ≤ c ∧ c < 128 else 0 ≤ c ∧ c < 256

instance (C : Config) (c : Int) : Decidable (is_char C c) := by
  unfold is_char; infer_instance

/-- The conversion `(char) c`. -/
def to_char (C : Config) (c : Int) : Int :=
  if C.char_signed then wrap_signed 8 c else wrap_unsigned 8 c

def Config.INT_BITS (C : Config) : Nat := 8 * C.sizeof_int

def Config.LONG_BITS (C : Config) : Nat := 8 * C.sizeof_long

def Config.CLOCK_BITS (C : Config) : Nat := 8 * C.sizeof_clock

/-- The constant `LONG_MAX` of `limits.h`. -/
def LONG_MAX (C : Config) : Int := 2 ^ (C.LONG_BITS - 1) - 1

/-- The conversion `(clock_t) x`. -/
def to_clock_t (C : Config) (x : Int) : Int :=
  if C.clock_signed then wrap_signed C.CLOCK_BITS x else wrap_unsigned C.CLOCK_BITS x

/-- The values a `clock_t` can hold. -/
def is_clock_t (C : Config) (t : Int) : Prop :=
  if C.clock_signed then -(2 ^ (C.CLOCK_BITS - 1)) ≤ t ∧ t < 2 ^ (C.CLOCK_BITS - 1)
  else 0 ≤ t ∧ t < 2 ^ C.CLOCK_BITS

instance (C : Config) (t : Int) : Decidable (is_clock_t C t) := by
  unfold is_clock_t; infer_instance

/-! ## `timers.h` -/

/-- The record `struct timer`.  `tmr_func` is the address of the watchdog
function, `tmr_arg` the value held in the argument union. -/
structure timer where
  tmr_next : Option Nat
  tmr_exp_time : Int
  tmr_func : Nat
  tmr_arg : Int
deriving DecidableEq, Repr

/-- The timer store: the `timer` found at each address. -/
abbrev Mem := Nat → timer

/-- Assignment of a whole record at address `a`. -/
def Mem.write (m : Mem) (a : Nat) (t : timer) : Mem :=
  fun b => if b = a then t else m b

/-- The constant TMR_NEVER as left by line 49: `((clock_t) LONG_MAX)`.  The
definition of line 47 is removed again by the `#undef` of line 48. -/
def TMR_NEVER (C : Config) : Int := to_clock_t C (LONG_MAX C)

/-- The statement `tmr_inittimer(tp)`: first `tp->tmr_exp_time = TMR_NEVER`,
then `tp->tmr_next = NULL`. -/
def tmr_inittimer (C : Config) (tp : Nat) (m : Mem) : Mem :=
  let m1 := m.write tp { m tp with tmr_exp_time := TMR_NEVER C }
  m1.write tp { m1 tp with tmr_next := none }

/-! ## `utility.c` -/

/-- What can go wrong in a run of the C code: a read beyond the end of the
format, a read beyond the end of a string argument, a `va_arg` that finds no
argument of the type asked for, a write before the start of `ascii`, an index
outside `km_buf`. -/
inductive Fault where
  | fmt_overrun
  | str_overrun
  | va_arg
  | ascii_overrun
  | kmess_bounds
deriving DecidableEq, Repr

/-- What the kernel does that is visible in order: a character stored in the
message buffer, a call of `send_sig`, a call of `prepare_shutdown`. -/
inductive Event where
  | put (c : Int)
  | send_sig (proc : Int) (sig : Int)
  | prepare_shutdown (how : Int)
deriving DecidableEq, Repr

/-- The global `kmess` of type `struct kmessages`. -/
structure kmessages where
  km_next : Int
  km_size : Int
  km_buf : Nat → Int

/-- The state `utility.c` works on: the message buffer, the static variable
`panicking` of `panic`, and the trace of events so far. -/
structure Kernel where
  kmess : kmessages
  panicking : Int
  trace : List Event

def END_OF_KMESS : Int := -1

/-- The function `kputc`.  The buffer is an array of `char`, so the store
converts `c`. -/
def kputc (C : Config) (c : Int) (k : Kernel) : Except Fault Kernel :=
  if c ≠ END_OF_KMESS then
    if 0 ≤ k.kmess.km_next ∧ k.kmess.km_next < C.KMESS_BUF_SIZE then
      let buf : Nat → Int :=
        fun i => if i = k.kmess.km_next.toNat then to_char C c else k.kmess.km_buf i
      let size := if k.kmess.km_size < C.KMESS_BUF_SIZE then k.kmess.km_size + 1 else k.kmess.km_size
      .ok { k with
            kmess := { km_buf := buf, km_size := size,
                       km_next := (k.kmess.km_next + 1) % C.KMESS_BUF_SIZE },
            trace := k.trace ++ [Event.put c] }
    else .error Fault.kmess_bounds
  else
    .ok { k with trace := k.trace ++ [Event.send_sig C.OUTPUT_PROC_NR C.SIGKMESS] }

/-- An actual argument of a call of `kprintf`: an `int`, an `unsigned long`, or
a `char *`, which is `NULL` or points to the characters of an object. -/
inductive Arg where
  | int (d : Int)
  | ulong (u : Int)
  | str (s : Option (List Int))
deriving DecidableEq, Repr

/-- The table `x2c`, the string "0123456789ABCDEF" with its terminator. -/
def x2c : List Int :=
  [48, 49, 50, 51, 52, 53, 54, 55, 56, 57, 65, 66, 67, 68, 69, 70, 0]

/-- The number of elements of `ascii`: `8 * sizeof(long) / 3 + 2`. -/
def sizeof_ascii (C : Config) : Nat := 8 * C.sizeof_long / 3 + 2

/-- The loop `do { *--s = x2c[(u % base)]; } while ((u /= base) > 0);`.  The
first argument is the index of `s` in `ascii`, the last one the characters
of `ascii` from `s` on. -/
def number_loop (base : Int) : Nat → Int → List Int → Except Fault (List Int)
  | 0, _, _ => .error Fault.ascii_overrun
  | s + 1, u, out =>
    let out1 := x2c.getD (u % base).toNat 0 :: out
    if u / base > 0 then number_loop base s (u / base) out1 else .ok out1

/-- Lines 119 to 124: `s = ascii + sizeof(ascii)-1; *s = 0;` and the loop. -/
def number (C : Config) (u : Int) (base : Int) : Except Fault (List Int) :=
  number_loop base (sizeof_ascii C - 1) u [0]

/-- The loop `while(*s != 0) { kputc(*s++); }`. -/
def put_string (C : Config) : List Int → Kernel → Except Fault Kernel
  | [], _ => .error Fault.str_overrun
  | c :: s, k =>
    if c ≠ 0 then
      match kputc C c k with
      | .ok k1 => put_string C s k1
      | .error e => .error e
    else .ok k

/-- Lines 127 and 128: the sign, if `negative` is set, then the string. -/
def output (C : Config) (negative : Bool) (s : List Int) (k : Kernel) :
    Except Fault Kernel :=
  if negative then
    match kputc C 45 k with
    | .ok k1 => put_string C s k1
    | .error e => .error e
  else put_string C s k

/-- The `switch` of lines 84 to 116 followed by the conversion of lines 119
to 124, for the key `c`: the string `s` to print, the arguments left and the
new value of `negative`. -/
def directive (C : Config) (c : Int) (argp : List Arg) (negative : Bool) :
    Except Fault (List Int × List Arg × Bool) :=
  if c = 100 then        -- 'd'
    match argp with
    | Arg.int d :: rest =>
      if d < 0 then
        match number C (wrap_unsigned C.LONG_BITS (wrap_signed C.INT_BITS (-d))) 10 with
        | .ok s => .ok (s, rest, true)
        | .error e => .error e
      else
        match number C (wrap_unsigned C.LONG_BITS d) 10 with
        | .ok s => .ok (s, rest, negative)
        | .error e => .error e
    | _ => .error Fault.va_arg
  else if c = 117 then   -- 'u'
    match argp with
    | Arg.ulong u :: rest =>
      match number C u 10 with
      | .ok s => .ok (s, rest, negative)
      | .error e => .error e
    | _ => .error Fault.va_arg
  else if c = 120 then   -- 'x'
    match argp with
    | Arg.ulong u :: rest =>
      match number C u 16 with
      | .ok s => .ok (s, rest, negative)
      | .error e => .error e
    | _ => .error Fault.va_arg
  else if c = 115 then   -- 's'
    match argp with
    | Arg.str (some s) :: rest => .ok (s, rest, negative)
    | Arg.str none :: rest => .ok ([40, 110, 117, 108, 108, 41, 0], rest, negative)
    | _ => .error Fault.va_arg
  else if c = 37 then    -- '%'
    .ok ([37, 0], argp, negative)
  else                   -- s = "%?"; s[1] = c;
    .ok ([37, c, 0], argp, negative)

/-- The loop of lines 81 to 134 on the characters of the format that are still
to be read, with the current values of `argp` and `negative`. -/
def kprintf_loop (C : Config) : List Int → List Arg → Bool → Kernel → Except Fault Kernel
  | [], _, _, _ => .error Fault.fmt_overrun
  | c :: fmt, argp, negative, k =>
    if c ≠ 0 then
      if c = 37 then
        match fmt with
        | [] => .error Fault.fmt_overrun
        | key :: fmt1 =>
          match directive C key argp negative with
          | .ok (s, argp1, negative1) =>
            match output C negative1 s k with
            | .ok k1 => kprintf_loop C fmt1 argp1 negative1 k1
            | .error e => .error e
          | .error e => .error e
      else
        match kputc C c k with
        | .ok k1 => kprintf_loop C fmt argp negative k1
        | .error e => .error e
    else .ok k

/-- The function `kprintf`: the loop with `negative = 0`, then
`kputc(END_OF_KMESS)`. -/
def kprintf (C : Config) (fmt : List Int) (args : List Arg) (k : Kernel) :
    Except Fault Kernel :=
  match kprintf_loop C fmt args false k with
  | .ok k1 => kputc C END_OF_KMESS k1
  | .error e => .error e

/-- The characters of a string literal, terminator included. -/
def cstr (s : String) : List Int :=
  s.toList.map (fun ch => (ch.toNat : Int)) ++ [0]

/-- The function `panic`.  The message is `NULL` or points to a string.  The
call of `prepare_shutdown` is recorded in the trace. -/
def panic (C : Config) (mess : Option (List Int)) (nr : Int) (k : Kernel) :
    Except Fault Kernel :=
  let k0 : Kernel := { k with panicking := wrap_signed C.INT_BITS (k.panicking + 1) }
  if k.panicking ≠ 0 then .ok k0
  else
    let shutdown (k3 : Kernel) : Except Fault Kernel :=
      .ok { k3 with trace := k3.trace ++ [Event.prepare_shutdown C.RBT_PANIC] }
    match mess with
    | some m =>
      match kprintf C (cstr "\nKernel panic: %s") [Arg.str (some m)] k0 with
      | .ok k1 =>
        match (if nr ≠ C.NO_NUM then kprintf C (cstr " %d") [Arg.int nr] k1 else .ok k1) with
        | .ok k2 =>
          match kprintf C (cstr "\n") [Arg.int C.NO_NUM] k2 with
          | .ok k3 => shutdown k3
          | .error e => .error e
        | .error e => .error e
      | .error e => .error e
    | none => shutdown k0

/-- The state before anything was printed: an empty buffer, `panicking = 0`. -/
def Kernel.init : Kernel :=
  { kmess := { km_next := 0, km_size := 0, km_buf := fun _ => 0 },
    panicking := 0, trace := [] }


/-! ## The timer queue

`timers.h` declares `tmrs_settimer`, `tmrs_clrtimer` and `tmrs_exptimers`; their
bodies are not among the sources.  They are written here after the
specification (sections 3 and 4.1), on the `struct timer` of `timers.h`.  The
walks along `tmr_next` take a bound on the number of steps and yield `none`
when it is used up. -/

/-- A timer queue: the store and the head reference `*tmrs`. -/
structure TimerQueue where
  mem : Mem
  head : Option Nat

/-- Modelled from the spec: the result the three operations report (their
bodies are missing), "the queue's new earliest deadline", which is "the
deadline of the new head" or NEVER for an empty queue. -/
def earliest (C : Config) (q : TimerQueue) : Int :=
  match q.head with
  | none => TMR_NEVER C
  | some h => (q.mem h).tmr_exp_time

/-- Modelled from the spec: the walk that looks for `tp` behind the node
`prev` and unlinks it by "patching the predecessor's link" (part of the missing
bodies of `tmrs_clrtimer` and `tmrs_settimer`).  The flag tells whether `tp`
was found. -/
def unlink_after (tp : Nat) : Nat → Mem → Nat → Option (Mem × Bool)
  | 0, _, _ => none
  | fuel + 1, m, prev =>
    match (m prev).tmr_next with
    | none => some (m, false)
    | some a =>
      if a = tp then
        some (m.write prev { m prev with tmr_next := (m tp).tmr_next }, true)
      else unlink_after tp fuel m a

/-- Modelled from the spec: "unlink it (patching the predecessor's link, or the
head if it was first)", a no-op when the node is not present (part of the missing
bodies of `tmrs_clrtimer` and `tmrs_settimer`). -/
def unlink (fuel : Nat) (q : TimerQueue) (tp : Nat) : Option (TimerQueue × Bool) :=
  match q.head with
  | none => some (q, false)
  | some h =>
    if h = tp then some ({ q with head := (q.mem tp).tmr_next }, true)
    else
      match unlink_after tp fuel q.mem h with
      | some (m1, found) => some ({ q with mem := m1 }, found)
      | none => none

/-- Modelled from the spec: the missing body of `tmrs_clrtimer`.  "If node is
not present in queue, this is a no-op.  If present, unlink it"; the node is then
not queued, so it "has next == none", and "implementations must reset deadline
to NEVER on clear".  The result is "the queue's new earliest deadline after
removal (or NEVER if the queue is now empty)". -/
def tmrs_clrtimer (C : Config) (fuel : Nat) (q : TimerQueue) (tp : Nat) :
    Option (TimerQueue × Int) :=
  match unlink fuel q tp with
  | some (q1, found) =>
    let idle : timer := { q1.mem tp with tmr_next := none, tmr_exp_time := TMR_NEVER C }
    let q2 : TimerQueue := if found then { q1 with mem := q1.mem.write tp idle } else q1
    some (q2, earliest C q2)
  | none => none

/-- Modelled from the spec: the walk that puts `tp` behind the node `prev`,
"before the first strictly-greater node", so that it "goes after existing
equal-deadline entries" (part of the missing body of `tmrs_settimer`). -/
def insert_after (tp : Nat) (exp_time : Int) : Nat → Mem → Nat → Option Mem
  | 0, _, _ => none
  | fuel + 1, m, prev =>
    let link (next : Option Nat) : Mem :=
      let m1 := m.write tp { m tp with tmr_next := next }
      m1.write prev { m1 prev with tmr_next := some tp }
    match (m prev).tmr_next with
    | none => some (link none)
    | some a =>
      if exp_time < (m a).tmr_exp_time then some (link (some a))
      else insert_after tp exp_time fuel m a

/-- Modelled from the spec: "insert node into queue at the position preserving
ascending-deadline order", at the head or behind a node (part of the missing
body of `tmrs_settimer`). -/
def insert (fuel : Nat) (q : TimerQueue) (tp : Nat) (exp_time : Int) : Option TimerQueue :=
  let at_head : TimerQueue :=
    { mem := q.mem.write tp { q.mem tp with tmr_next := q.head }, head := some tp }
  match q.head with
  | none => some at_head
  | some h =>
    if exp_time < (q.mem h).tmr_exp_time then some at_head
    else
      match insert_after tp exp_time fuel q.mem h with
      | some m1 => some { q with mem := m1 }
      | none => none

/-- Modelled from the spec: the missing body of `tmrs_settimer`.  "If node is
already present in queue (by identity), unlink it first.  Then set
node.deadline and node.callback, and insert node into queue at the position
preserving ascending-deadline order."  The result is "the queue's new earliest
deadline (the deadline of the new head)". -/
def tmrs_settimer (C : Config) (fuel : Nat) (q : TimerQueue) (tp : Nat) (exp_time : Int)
    (watchdog : Nat) : Option (TimerQueue × Int) :=
  match unlink fuel q tp with
  | some (q1, _) =>
    let armed : timer := { q1.mem tp with tmr_exp_time := exp_time, tmr_func := watchdog }
    let q2 : TimerQueue := { q1 with mem := q1.mem.write tp armed }
    match insert fuel q2 tp exp_time with
    | some q3 => some (q3, earliest C q3)
    | none => none
  | none => none

/-- What the watchdog functions do: the function at address `f`, called with
the timer `tp`, turns a queue into a queue (it may set and clear timers). -/
abbrev Watchdogs := Nat → Nat → TimerQueue → TimerQueue

/-- Modelled from the spec: the loop of the missing body of `tmrs_exptimers`.
"Walks the queue from the head while head.deadline <= now: for each such node,
unlink it from the queue (before invoking its callback) and invoke its
callback"; a node that fired is inactive, so its deadline is NEVER.  The list
holds the timers in the order in which they fired. -/
def exptimers_loop (C : Config) (run : Watchdogs) (now : Int) :
    Nat → TimerQueue → Option (TimerQueue × List Nat)
  | 0, _ => none
  | fuel + 1, q =>
    match q.head with
    | none => some (q, [])
    | some tp =>
      if (q.mem tp).tmr_exp_time ≤ now then
        let idle : timer := { q.mem tp with tmr_next := none, tmr_exp_time := TMR_NEVER C }
        let q1 : TimerQueue := { mem := q.mem.write tp idle, head := (q.mem tp).tmr_next }
        match exptimers_loop C run now fuel (run (q.mem tp).tmr_func tp q1) with
        | some (q2, fired) => some (q2, tp :: fired)
        | none => none
      else some (q, [])

/-- Modelled from the spec: the missing body of `tmrs_exptimers`: the loop, then
"the new earliest deadline (the first remaining node's deadline, or NEVER if
none remain)". -/
def tmrs_exptimers (C : Config) (run : Watchdogs) (fuel : Nat) (q : TimerQueue) (now : Int) :
    Option (TimerQueue × Int × List Nat) :=
  match exptimers_loop C run now fuel q with
  | some (q1, fired) => some (q1, earliest C q1, fired)
  | none => none

/-- A call of `tmrs_settimer` or of `tmrs_clrtimer`. -/
inductive TimerOp where
  | set (tp : Nat) (exp_time : Int) (watchdog : Nat)
  | clr (tp : Nat)
deriving DecidableEq, Repr

/-- A sequence of calls of `tmrs_settimer` and `tmrs_clrtimer` on one queue. -/
def run_ops (C : Config) (fuel : Nat) : List TimerOp → TimerQueue → Option TimerQueue
  | [], q => some q
  | TimerOp.set tp exp_time watchdog :: ops, q =>
    match tmrs_settimer C fuel q tp exp_time watchdog with
    | some (q1, _) => run_ops C fuel ops q1
    | none => none
  | TimerOp.clr tp :: ops, q =>
    match tmrs_clrtimer C fuel q tp with
    | some (q1, _) => run_ops C fuel ops q1
    | none => none

/-! ## Notions used to state the properties -/

/-- The queue that starts at `p` consists of the timers `l`, in this order, and
ends with a `NULL` link. -/
def Linked (m : Mem) : Option Nat → List Nat → Prop
  | p, [] => p = none
  | p, a :: l => p = some a ∧ Linked m (m a).tmr_next l

instance Linked.decidable (m : Mem) : (p : Option Nat) → (l : List Nat) → Decidable (Linked m p l)
  | p, [] => by unfold Linked; infer_instance
  | p, a :: l => by
    unfold Linked
    have := Linked.decidable m (m a).tmr_next l
    infer_instance

/-- The expiration times met along `l` never decrease. -/
def Ordered (m : Mem) (l : List Nat) : Prop :=
  List.Pairwise (fun a b => (m a).tmr_exp_time ≤ (m b).tmr_exp_time) l

instance (m : Mem) (l : List Nat) : Decidable (Ordered m l) := by
  unfold Ordered; infer_instance

/-- The list `l` with `tp` put in front of the first timer that expires
strictly later than `exp_time`. -/
def place (m : Mem) (tp : Nat) (exp_time : Int) : List Nat → List Nat
  | [] => [tp]
  | a :: l => if exp_time < (m a).tmr_exp_time then tp :: a :: l else a :: place m tp exp_time l

/-- The next free position lies inside `km_buf`. -/
def index_ok (C : Config) (k : Kernel) : Prop :=
  0 ≤ k.kmess.km_next ∧ k.kmess.km_next < C.KMESS_BUF_SIZE

instance (C : Config) (k : Kernel) : Decidable (index_ok C k) := by
  unfold index_ok; infer_instance

/-- The event a call `kputc(c)` adds to the trace. -/
def kputc_event (C : Config) (c : Int) : Event :=
  if c ≠ END_OF_KMESS then Event.put c else Event.send_sig C.OUTPUT_PROC_NR C.SIGKMESS

/-- The object `s` holds a terminator. -/
def terminated (s : List Int) : Bool := decide ((0 : Int) ∈ s)

/-- The format can be scanned up to a terminator without leaving its object,
and each directive finds an argument of its type: an `int` for `%d`, an
`unsigned long` in range for `%u` and `%x`, `NULL` or a terminated string for
`%s`. -/
def well_formed (C : Config) : List Int → List Arg → Bool
  | [], _ => false
  | c :: fmt, args =>
    if c = 0 then true
    else if c = 37 then
      match fmt with
      | [] => false
      | key :: fmt1 =>
        if key = 100 then
          match args with
          | Arg.int _ :: rest => well_formed C fmt1 rest
          | _ => false
        else if key = 117 ∨ key = 120 then
          match args with
          | Arg.ulong u :: rest =>
            decide (0 ≤ u) && decide (u < 2 ^ C.LONG_BITS) && well_formed C fmt1 rest
          | _ => false
        else if key = 115 then
          match args with
          | Arg.str (some s) :: rest => terminated s && well_formed C fmt1 rest
          | Arg.str none :: rest => well_formed C fmt1 rest
          | _ => false
        else well_formed C fmt1 args
    else well_formed C fmt args

/-- No character of the format and of the string arguments has the value
`END_OF_KMESS`. -/
def sentinel_free (fmt : List Int) (args : List Arg) : Prop :=
  (∀ c ∈ fmt, c ≠ END_OF_KMESS) ∧
    ∀ s, Arg.str (some s) ∈ args → ∀ c ∈ s, c ≠ END_OF_KMESS

/-- A sequence of calls of `panic`, each with its two arguments. -/
def run_panics (C : Config) : List (Option (List Int) × Int) → Kernel → Except Fault Kernel
  | [], k => .ok k
  | (mess, nr) :: calls, k =>
    match panic C mess nr k with
    | .ok k1 => run_panics C calls k1
    | .error e => .error e

/-- The number of calls of `prepare_shutdown` in a trace. -/
def shutdowns : List Event → Nat
  | [] => 0
  | Event.prepare_shutdown _ :: tr => shutdowns tr + 1
  | _ :: tr => shutdowns tr

/-- The characters of the string an object starts with: those in front of the
first terminator. -/
def c_string (s : List Int) : List Int := s.takeWhile (fun c => decide (c ≠ 0))

/-- The expiration time of the first timer of `l`, or TMR_NEVER when there is
none. -/
def first_deadline (C : Config) (m : Mem) : List Nat → Int
  | [] => TMR_NEVER C
  | a :: _ => (m a).tmr_exp_time

/-- An empty queue over a store in which every timer is as `tmr_inittimer`
leaves it. -/
def empty_queue (C : Config) : TimerQueue :=
  { mem := fun _ => { tmr_next := none, tmr_exp_time := TMR_NEVER C, tmr_func := 0, tmr_arg := 0 },
    head := none }

/-- The calls that set the timers 1, 2, 3 and 4 to the deadlines 5, 10, 10 and
20, in this order. -/
def four_sets : List TimerOp :=
  [TimerOp.set 1 5 0, TimerOp.set 2 10 0, TimerOp.set 3 10 0, TimerOp.set 4 20 0]

/-- The queue these four calls build from the empty queue. -/
def four_timers : TimerQueue :=
  (run_ops minix_i386 8 four_sets (empty_queue minix_i386)).getD (empty_queue minix_i386)

/-- Watchdog functions of which the one called for timer 1 clears timer 2 with
`tmrs_clrtimer` on the queue it is given; the ones called for other timers do
nothing. -/
def clearing_watchdogs : Watchdogs :=
  fun _ tp q =>
    if tp = 1 then
      match tmrs_clrtimer minix_i386 8 q 2 with
      | some (q1, _) => q1
      | none => q
    else q

/-- Watchdog functions of which the one called for timer 1 sets timer 1 again,
to the deadline 15, with `tmrs_settimer` on the queue it is given; the ones
called for other timers do nothing. -/
def rearming_watchdogs : Watchdogs :=
  fun _ tp q =>
    if tp = 1 then
      match tmrs_settimer minix_i386 8 q 1 15 0 with
      | some (q1, _) => q1
      | none => q
    else q

/-- The values an `int` can hold. -/
def is_int (C : Config) (d : Int) : Prop :=
  -(2 ^ (C.INT_BITS - 1)) ≤ d ∧ d < 2 ^ (C.INT_BITS - 1)

instance (C : Config) (d : Int) : Decidable (is_int C d) := by
  unfold is_int; infer_instance

/-- The value of a digit character of `x2c`. -/
def digit_value (c : Int) : Int := if c ≤ 57 then c - 48 else c - 55

/-- The number a digit string stands for in base `base`, the most significant
digit first. -/
def read_back (base : Int) (ds : List Int) : Int :=
  ds.foldl (fun acc c => acc * base + digit_value c) 0

/-- The string `ds` is the canonical representation of `u` in base `base`: its
characters are among the first `base` characters of `x2c`, read back in this
base it gives `u`, it is the single digit 0 for `u = 0` and does not start
with the digit 0 otherwise. -/
def canonical (base u : Int) (ds : List Int) : Prop :=
  (∀ c ∈ ds, c ∈ x2c.take base.toNat) ∧ read_back base ds = u ∧
    (u = 0 → ds = [48]) ∧ (u ≠ 0 → ds.head? ≠ some 48)

/-- The invariant of the message buffer: the next position and the size are
in range. -/
def kmess_inv (C : Config) (k : Kernel) : Prop :=
  (0 ≤ k.kmess.km_next ∧ k.kmess.km_next < C.KMESS_BUF_SIZE) ∧
    (0 ≤ k.kmess.km_size ∧ k.kmess.km_size ≤ C.KMESS_BUF_SIZE)

instance (C : Config) (k : Kernel) : Decidable (kmess_inv C k) := by
  unfold kmess_inv; infer_instance

/-- A sequence of calls of `kputc`, one for each character of the list. -/
def kputc_seq (C : Config) : List Int → Kernel → Except Fault Kernel
  | [], k => .ok k
  | c :: cs, k =>
    match kputc C c k with
    | .ok k1 => kputc_seq C cs k1
    | .error e => .error e

/-- A configuration with an `int` of four and a `long` of eight bytes. -/
def lp64 : Config :=
  { minix_i386 with sizeof_long := 8, sizeof_clock := 8 }

/-! ## Properties of `timers.h` -/

theorem two_pow_pred (w : Nat) (hw : 0 < w) : (2 : Int) ^ w = 2 * 2 ^ (w - 1) := by
  obtain ⟨v, rfl⟩ : ∃ v, w = v + 1 := ⟨w - 1, by omega⟩
  simp [pow_succ, mul_comm]

theorem wrap_signed_id (w : Nat) (hw : 0 < w) (x : Int)
    (h1 : -(2 ^ (w - 1)) ≤ x) (h2 : x < 2 ^ (w - 1)) : wrap_signed w x = x := by
  unfold wrap_signed
  have h := two_pow_pred w hw
  rw [Int.emod_eq_of_lt (by omega) (by omega)]
  omega

/-- C1: after `tmr_inittimer(tp)` the expiration time of the node is TMR_NEVER
and its next link is NULL, whatever the fields of the node were before; the
watchdog function and the argument of the node, and every other node, are left
as they were. -/
theorem tmr_inittimer_resets (C : Config) (tp : Nat) (m : Mem) :
    (tmr_inittimer C tp m tp).tmr_exp_time = TMR_NEVER C ∧
    (tmr_inittimer C tp m tp).tmr_next = none ∧
    (tmr_inittimer C tp m tp).tmr_func = (m tp).tmr_func ∧
    (tmr_inittimer C tp m tp).tmr_arg = (m tp).tmr_arg ∧
    ∀ a, a ≠ tp → tmr_inittimer C tp m a = m a := by
  refine ⟨?_, ?_, ?_, ?_, ?_⟩ <;> simp [tmr_inittimer, Mem.write]
  intro a ha
  simp [ha]

theorem TMR_NEVER_long (C : Config) (hs : C.clock_signed = true)
    (hw : C.sizeof_clock = C.sizeof_long) (hpos : 0 < C.sizeof_long) :
    TMR_NEVER C = 2 ^ (C.LONG_BITS - 1) - 1 := by
  have hb : 0 < C.LONG_BITS := by unfold Config.LONG_BITS; omega
  have hp : (0 : Int) < 2 ^ (C.LONG_BITS - 1) := by positivity
  unfold TMR_NEVER to_clock_t LONG_MAX
  rw [if_pos hs]
  have hc : C.CLOCK_BITS = C.LONG_BITS := by unfold Config.CLOCK_BITS Config.LONG_BITS; rw [hw]
  rw [hc]
  exact wrap_signed_id _ hb _ (by omega) (by omega)

/-- C5: when `clock_t` is a signed type of the size of `long` (it is declared
outside the sources; in MINIX it is `long`), every value `t` of type `clock_t`
satisfies `t <= TMR_NEVER`, where TMR_NEVER is `(clock_t) LONG_MAX`. -/
theorem TMR_NEVER_is_greatest (C : Config) (t : Int) (hs : C.clock_signed = true)
    (hw : C.sizeof_clock = C.sizeof_long) (hpos : 0 < C.sizeof_long)
    (ht : is_clock_t C t) : t ≤ TMR_NEVER C := by
  rw [TMR_NEVER_long C hs hw hpos]
  unfold is_clock_t at ht
  rw [if_pos hs] at ht
  have hc : C.CLOCK_BITS = C.LONG_BITS := by unfold Config.CLOCK_BITS Config.LONG_BITS; rw [hw]
  rw [hc] at ht
  omega

theorem TMR_NEVER_is_greatest_witness :
    is_clock_t minix_i386 2147483647 ∧ (2147483647 : Int) ≤ TMR_NEVER minix_i386 :=
  ⟨by decide, TMR_NEVER_is_greatest minix_i386 2147483647 rfl rfl (by decide) (by decide)⟩

/-! ## Properties of `utility.c` -/

theorem kputc_ok (C : Config) (c : Int) (k : Kernel) (h : index_ok C k) :
    ∃ k1, kputc C c k = .ok k1 ∧ k1.trace = k.trace ++ [kputc_event C c] ∧
      index_ok C k1 ∧ k1.panicking = k.panicking := by
  unfold kputc kputc_event
  by_cases hc : c ≠ END_OF_KMESS
  · have h2 : 0 ≤ k.kmess.km_next ∧ k.kmess.km_next < C.KMESS_BUF_SIZE := h
    rw [if_pos hc, if_pos h2, if_pos hc]
    refine ⟨_, rfl, rfl, ?_, rfl⟩
    have hK : 0 < C.KMESS_BUF_SIZE := lt_of_le_of_lt h.1 h.2
    exact ⟨Int.emod_nonneg _ (ne_of_gt hK), Int.emod_lt_of_pos _ hK⟩
  · rw [if_neg hc, if_neg hc]
    exact ⟨_, rfl, rfl, h, rfl⟩

theorem put_string_ok (C : Config) : ∀ (s : List Int) (k : Kernel), index_ok C k →
    (0 : Int) ∈ s →
    ∃ k1, put_string C s k = .ok k1 ∧
      k1.trace = k.trace ++ (c_string s).map (kputc_event C) ∧
      index_ok C k1 ∧ k1.panicking = k.panicking := by
  intro s
  induction s with
  | nil => intro k _ h0; simp at h0
  | cons c s ih =>
    intro k hk h0
    unfold put_string c_string
    by_cases hc : c ≠ 0
    · have h0s : (0 : Int) ∈ s := by
        rcases List.mem_cons.mp h0 with h | h
        · exact absurd h.symm hc
        · exact h
      obtain ⟨k1, e1, t1, i1, p1⟩ := kputc_ok C c k hk
      obtain ⟨k2, e2, t2, i2, p2⟩ := ih k1 i1 h0s
      rw [if_pos hc, e1]
      refine ⟨k2, e2, ?_, i2, by rw [p2, p1]⟩
      rw [t2, t1, List.takeWhile_cons_of_pos (by simpa using hc)]
      simp [c_string]
    · rw [if_neg hc]
      refine ⟨k, rfl, ?_, hk, rfl⟩
      rw [List.takeWhile_cons_of_neg (by simpa using hc)]
      simp

theorem output_ok (C : Config) (negative : Bool) (s : List Int) (k : Kernel)
    (hk : index_ok C k) (h0 : (0 : Int) ∈ s) :
    ∃ k1, output C negative s k = .ok k1 ∧
      k1.trace = k.trace ++
        ((if negative then [45] else []) ++ c_string s).map (kputc_event C) ∧
      index_ok C k1 ∧ k1.panicking = k.panicking := by
  unfold output
  cases negative with
  | false =>
    obtain ⟨k1, e1, t1, i1, p1⟩ := put_string_ok C s k hk h0
    exact ⟨k1, by simpa using e1, by simpa using t1, i1, p1⟩
  | true =>
    obtain ⟨k1, e1, t1, i1, p1⟩ := kputc_ok C 45 k hk
    obtain ⟨k2, e2, t2, i2, p2⟩ := put_string_ok C s k1 i1 h0
    refine ⟨k2, by simp [e1, e2], ?_, i2, by rw [p2, p1]⟩
    rw [t2, t1]
    simp

theorem x2c_getD_mem (i : Nat) : x2c.getD i 0 ∈ x2c := by
  by_cases h : i < x2c.length
  · rw [List.getD_eq_getElem _ _ h]
    exact List.getElem_mem h
  · rw [List.getD_eq_default _ _ (by omega)]
    decide

theorem number_loop_ok (base : Int) (hb : 2 ≤ base) : ∀ (s : Nat) (u : Int) (out : List Int),
    0 ≤ u → u < base ^ s → 1 ≤ s →
    ∃ r, number_loop base s u out = .ok r ∧ ((0 : Int) ∈ out → (0 : Int) ∈ r) ∧
      ∀ x ∈ r, x ∈ out ∨ x ∈ x2c := by
  intro s
  induction s with
  | zero =>
    intro u out _ _ h2
    omega
  | succ s ih =>
    intro u out h0 h1 _
    unfold number_loop
    simp only []
    by_cases hq : u / base > 0
    · rw [if_pos hq]
      have hlt : u / base < base ^ s := by
        apply Int.ediv_lt_of_lt_mul (by omega)
        rw [pow_succ] at h1
        exact h1
      have hs : 1 ≤ s := by
        rcases Nat.eq_zero_or_pos s with h | h
        · rw [h] at hlt
          simp at hlt
          omega
        · exact h
      obtain ⟨r, e, z, m⟩ :=
        ih (u / base) (x2c.getD (u % base).toNat 0 :: out) (by omega) hlt hs
      refine ⟨r, e, fun h => z (List.mem_cons_of_mem _ h), ?_⟩
      intro x hx
      rcases m x hx with h | h
      · rcases List.mem_cons.mp h with h | h
        · right; rw [h]; exact x2c_getD_mem _
        · left; exact h
      · right; exact h
    · rw [if_neg hq]
      refine ⟨_, rfl, fun h => List.mem_cons_of_mem _ h, ?_⟩
      intro x hx
      rcases List.mem_cons.mp hx with h | h
      · right; rw [h]; exact x2c_getD_mem _
      · left; exact h

theorem ascii_holds_long (C : Config) (base : Int) (hb : 8 ≤ base) :
    (2 : Int) ^ C.LONG_BITS ≤ base ^ (sizeof_ascii C - 1) := by
  unfold Config.LONG_BITS sizeof_ascii
  have h1 : (2 : Int) ^ (8 * C.sizeof_long) ≤ 2 ^ (3 * (8 * C.sizeof_long / 3 + 2 - 1)) :=
    pow_le_pow_right₀ (by norm_num) (by omega)
  have h2 : (2 : Int) ^ (3 * (8 * C.sizeof_long / 3 + 2 - 1))
      = 8 ^ (8 * C.sizeof_long / 3 + 2 - 1) := by
    rw [pow_mul]; norm_num
  have h3 : (8 : Int) ^ (8 * C.sizeof_long / 3 + 2 - 1)
      ≤ base ^ (8 * C.sizeof_long / 3 + 2 - 1) :=
    pow_le_pow_left₀ (by norm_num) hb _
  omega

theorem number_ok (C : Config) (u : Int) (base : Int) (hb : 8 ≤ base) (h0 : 0 ≤ u)
    (h1 : u < 2 ^ C.LONG_BITS) :
    ∃ s, number C u base = .ok s ∧ (0 : Int) ∈ s ∧ ∀ x ∈ s, x ∈ x2c := by
  unfold number
  obtain ⟨r, e, z, m⟩ := number_loop_ok base (by omega) (sizeof_ascii C - 1) u [0] h0
    (lt_of_lt_of_le h1 (ascii_holds_long C base hb)) (by unfold sizeof_ascii; omega)
  refine ⟨r, e, z (by simp), ?_⟩
  intro x hx
  rcases m x hx with h | h
  · simp at h; rw [h]; decide
  · exact h

theorem x2c_ne_sentinel (x : Int) (hx : x ∈ x2c) : x ≠ END_OF_KMESS := by
  intro h
  rw [h] at hx
  revert hx
  decide

theorem c_string_subset (s : List Int) (x : Int) (hx : x ∈ c_string s) : x ∈ s :=
  (List.takeWhile_sublist _).subset hx

theorem directive_ok (C : Config) (key : Int) (fmt1 : List Int) (args : List Arg)
    (negative : Bool) (hw : well_formed C (37 :: key :: fmt1) args = true) :
    ∃ s args1 negative1, directive C key args negative = .ok (s, args1, negative1) ∧
      (0 : Int) ∈ s ∧ well_formed C fmt1 args1 = true ∧
      (∀ t, Arg.str (some t) ∈ args1 → Arg.str (some t) ∈ args) ∧
      (key ≠ END_OF_KMESS → (∀ t, Arg.str (some t) ∈ args → ∀ c ∈ t, c ≠ END_OF_KMESS) →
        ∀ x ∈ s, x ≠ END_OF_KMESS) := by
  unfold well_formed at hw
  simp only [show ¬ ((37 : Int) = 0) by decide, if_false, if_true] at hw
  unfold directive
  by_cases h100 : key = 100
  · simp only [h100, if_true] at hw ⊢
    match args, hw with
    | Arg.int d :: rest, hw =>
      simp only []
      by_cases hd : d < 0
      · obtain ⟨s, e, z, m⟩ := number_ok C
          (wrap_unsigned C.LONG_BITS (wrap_signed C.INT_BITS (-d))) 10 (by norm_num)
          (Int.emod_nonneg _ (by positivity)) (Int.emod_lt_of_pos _ (by positivity))
        rw [if_pos hd, e]
        exact ⟨s, rest, true, rfl, z, hw, fun t h => List.mem_cons_of_mem _ h,
          fun _ _ x hx => x2c_ne_sentinel x (m x hx)⟩
      · obtain ⟨s, e, z, m⟩ := number_ok C (wrap_unsigned C.LONG_BITS d) 10 (by norm_num)
          (Int.emod_nonneg _ (by positivity)) (Int.emod_lt_of_pos _ (by positivity))
        rw [if_neg hd, e]
        exact ⟨s, rest, negative, rfl, z, hw, fun t h => List.mem_cons_of_mem _ h,
          fun _ _ x hx => x2c_ne_sentinel x (m x hx)⟩
  · simp only [h100, if_false] at hw ⊢
    by_cases hu : key = 117
    · simp only [hu, true_or, if_true, show ¬ ((117 : Int) = 100) by decide, if_false] at hw ⊢
      match args, hw with
      | Arg.ulong u :: rest, hw =>
        simp only [Bool.and_eq_true, decide_eq_true_eq] at hw
        obtain ⟨s, e, z, m⟩ := number_ok C u 10 (by norm_num) hw.1.1 hw.1.2
        simp only [e]
        exact ⟨s, rest, negative, rfl, z, hw.2, fun t h => List.mem_cons_of_mem _ h,
          fun _ _ x hx => x2c_ne_sentinel x (m x hx)⟩
    · by_cases hx : key = 120
      · simp only [hx, or_true, if_true, show ¬ ((120 : Int) = 117) by decide, if_false] at hw ⊢
        match args, hw with
        | Arg.ulong u :: rest, hw =>
          simp only [Bool.and_eq_true, decide_eq_true_eq] at hw
          obtain ⟨s, e, z, m⟩ := number_ok C u 16 (by norm_num) hw.1.1 hw.1.2
          simp only [e]
          exact ⟨s, rest, negative, rfl, z, hw.2, fun t h => List.mem_cons_of_mem _ h,
            fun _ _ x hx => x2c_ne_sentinel x (m x hx)⟩
      · simp only [hu, hx, or_self, if_false] at hw ⊢
        by_cases hs : key = 115
        · simp only [hs, if_true] at hw ⊢
          match args, hw with
          | Arg.str (some s) :: rest, hw =>
            simp only [Bool.and_eq_true, terminated, decide_eq_true_eq] at hw
            exact ⟨s, rest, negative, rfl, hw.1, hw.2, fun t h => List.mem_cons_of_mem _ h,
              fun _ h x hx => h s (List.mem_cons_self _ _) x hx⟩
          | Arg.str none :: rest, hw =>
            refine ⟨_, rest, negative, rfl, by decide, hw, fun t h => List.mem_cons_of_mem _ h, ?_⟩
            intro _ _
            decide
        · simp only [hs, if_false] at hw ⊢
          by_cases hp : key = 37
          · simp only [hp, if_true]
            refine ⟨_, args, negative, rfl, by decide, hw, fun t h => h, ?_⟩
            intro _ _
            decide
          · simp only [hp, if_false]
            refine ⟨_, args, negative, rfl, by simp, hw, fun t h => h, ?_⟩
            intro hk _ x hx
            simp only [List.mem_cons, List.mem_singleton, List.not_mem_nil, or_false] at hx
            rcases hx with h | h | h
            · rw [h]; decide
            · rw [h]; exact hk
            · rw [h]; decide

theorem kprintf_loop_ok (C : Config) : ∀ (n : Nat) (fmt : List Int), fmt.length ≤ n →
    ∀ (args : List Arg) (negative : Bool) (k : Kernel), index_ok C k →
    well_formed C fmt args = true →
    ∃ (k1 : Kernel) (msg : List Int), kprintf_loop C fmt args negative k = .ok k1 ∧
      k1.trace = k.trace ++ msg.map (kputc_event C) ∧
      index_ok C k1 ∧ k1.panicking = k.panicking ∧
      (sentinel_free fmt args → ∀ x ∈ msg, x ≠ END_OF_KMESS) := by
  intro n
  induction n with
  | zero =>
    intro fmt hn args negative k _ hw
    have : fmt = [] := List.length_eq_zero.mp (by omega)
    rw [this] at hw
    simp [well_formed] at hw
  | succ n ih =>
    intro fmt hn args negative k hk hw
    match fmt, hn, hw with
    | [], _, hw => simp [well_formed] at hw
    | c :: fmt, hn, hw =>
      unfold kprintf_loop
      by_cases hc : c ≠ 0
      · rw [if_pos hc]
        by_cases hp : c = 37
        · rw [if_pos hp]
          subst hp
          match fmt, hn, hw with
          | [], _, hw => simp [well_formed] at hw
          | key :: fmt1, hn, hw =>
            obtain ⟨s, args1, negative1, ed, z, hw1, hsub, hsf⟩ :=
              directive_ok C key fmt1 args negative hw
            obtain ⟨k1, eo, t1, i1, p1⟩ := output_ok C negative1 s k hk z
            obtain ⟨k2, msg, el, t2, i2, p2, sf2⟩ :=
              ih fmt1 (by simp at hn; omega) args1 negative1 k1 i1 hw1
            simp only [ed, eo]
            refine ⟨k2, ((if negative1 then [45] else []) ++ c_string s) ++ msg, el, ?_, i2,
              by rw [p2, p1], ?_⟩
            · rw [t2, t1]; simp
            · intro hfree x hx
              rcases List.mem_append.mp hx with h | h
              · rcases List.mem_append.mp h with h | h
                · cases negative1 <;> simp at h
                  rw [h]; decide
                · exact hsf (hfree.1 key (by simp)) hfree.2 x (c_string_subset s x h)
              · exact sf2 ⟨fun c hc => hfree.1 c (by simp [hc]),
                  fun t ht => hfree.2 t (hsub t ht)⟩ x h
        · rw [if_neg hp]
          have hw1 : well_formed C fmt args = true := by
            unfold well_formed at hw
            simpa [hc, hp] using hw
          obtain ⟨k1, e1, t1, i1, p1⟩ := kputc_ok C c k hk
          obtain ⟨k2, msg, el, t2, i2, p2, sf2⟩ :=
            ih fmt (by simp at hn; omega) args negative k1 i1 hw1
          simp only [e1]
          refine ⟨k2, c :: msg, el, ?_, i2, by rw [p2, p1], ?_⟩
          · rw [t2, t1]; simp
          · intro hfree x hx
            rcases List.mem_cons.mp hx with h | h
            · rw [h]; exact hfree.1 c (by simp)
            · exact sf2 ⟨fun c hc => hfree.1 c (by simp [hc]), hfree.2⟩ x h
      · rw [if_neg hc]
        exact ⟨k, [], rfl, by simp, hk, rfl, fun _ x hx => by simp at hx⟩


theorem kprintf_ok (C : Config) (fmt : List Int) (args : List Arg) (k : Kernel)
    (hk : index_ok C k) (hw : well_formed C fmt args = true) :
    ∃ (k1 : Kernel) (msg : List Int), kprintf C fmt args k = .ok k1 ∧
      k1.trace = k.trace ++ msg.map (kputc_event C) ++
        [Event.send_sig C.OUTPUT_PROC_NR C.SIGKMESS] ∧
      index_ok C k1 ∧ k1.panicking = k.panicking ∧
      (sentinel_free fmt args → ∀ x ∈ msg, x ≠ END_OF_KMESS) := by
  obtain ⟨k1, msg, e1, t1, i1, p1, sf⟩ :=
    kprintf_loop_ok C fmt.length fmt (le_refl _) args false k hk hw
  obtain ⟨k2, e2, t2, i2, p2⟩ := kputc_ok C END_OF_KMESS k1 i1
  unfold kprintf
  simp only [e1, e2]
  refine ⟨k2, msg, rfl, ?_, i2, by rw [p2, p1], sf⟩
  rw [t2, t1]
  simp [kputc_event]

theorem map_kputc_event_of_free (C : Config) (msg : List Int)
    (h : ∀ x ∈ msg, x ≠ END_OF_KMESS) : msg.map (kputc_event C) = msg.map Event.put := by
  apply List.map_congr_left
  intro x hx
  simp [kputc_event, h x hx]

/-- C4 (amended): for every format that is well formed for its arguments and
every state whose buffer index is in range, if no character of the format and
of the string arguments has the value END_OF_KMESS, one call of `kprintf`
returns, and what it adds to the trace is the characters of the message, each
put in the buffer, followed by exactly one `send_sig` to OUTPUT_PROC_NR with
SIGKMESS. -/
theorem kprintf_notifies_once (C : Config) (fmt : List Int) (args : List Arg) (k : Kernel)
    (hk : index_ok C k) (hw : well_formed C fmt args = true) (hf : sentinel_free fmt args) :
    ∃ (k1 : Kernel) (msg : List Int), kprintf C fmt args k = .ok k1 ∧
      k1.trace = k.trace ++ msg.map Event.put ++
        [Event.send_sig C.OUTPUT_PROC_NR C.SIGKMESS] := by
  obtain ⟨k1, msg, e, t, _, _, sf⟩ := kprintf_ok C fmt args k hk hw
  refine ⟨k1, msg, e, ?_⟩
  rw [t, map_kputc_event_of_free C msg (sf hf)]

theorem kprintf_notifies_once_witness :
    index_ok minix_i386 Kernel.init ∧
    well_formed minix_i386 (cstr "tick %d") [Arg.int 7] = true ∧
    sentinel_free (cstr "tick %d") [Arg.int 7] ∧
    ∃ (k1 : Kernel) (msg : List Int),
      kprintf minix_i386 (cstr "tick %d") [Arg.int 7] Kernel.init = .ok k1 ∧
      k1.trace = Kernel.init.trace ++ msg.map Event.put ++
        [Event.send_sig minix_i386.OUTPUT_PROC_NR minix_i386.SIGKMESS] :=
  have hf : sentinel_free (cstr "tick %d") [Arg.int 7] :=
    ⟨by decide, by intro s hs; simp at hs⟩
  ⟨by decide, by decide, hf,
    kprintf_notifies_once minix_i386 (cstr "tick %d") [Arg.int 7] Kernel.init
      (by decide) (by decide) hf⟩

theorem ok_of_trace (r : Except Fault Kernel) (tr : List Event)
    (h : r.toOption.map (fun k => k.trace) = some tr) : ∃ k1, r = .ok k1 ∧ k1.trace = tr := by
  cases r with
  | error e => simp [Except.toOption] at h
  | ok k => exact ⟨k, rfl, by simpa [Except.toOption] using h⟩

/-- C4 (counterexample): the format that consists of the character of value
`-1` (the byte `0xFF` of a signed `char`) makes one call of `kprintf` notify
the output driver twice, the first time from the middle of the loop. -/
theorem kprintf_sentinel_notifies_twice :
    is_char minix_i386 (-1) ∧
    ∃ k1, kprintf minix_i386 [-1, 0] [] Kernel.init = .ok k1 ∧
      k1.trace = [Event.send_sig 4 29, Event.send_sig 4 29] :=
  ⟨by decide, ok_of_trace _ _ (by decide)⟩

/-- An unknown key other than the terminator and the end marker is echoed as
`%` and the key, without use of an argument, when `negative` is not set; the
scan goes on with the rest of the format.  With `negative` set a `-` comes
first. -/
theorem unknown_key_echo (C : Config) (c : Int) (rest : List Int) (args : List Arg)
    (negative : Bool) (k : Kernel) (hk : index_ok C k)
    (hkey : c ≠ 100 ∧ c ≠ 117 ∧ c ≠ 120 ∧ c ≠ 115 ∧ c ≠ 37) (h0 : c ≠ 0)
    (hend : c ≠ END_OF_KMESS) :
    ∃ k1 : Kernel, index_ok C k1 ∧
      k1.trace = k.trace ++ ((if negative then [45] else []) ++ [37, c]).map Event.put ∧
      kprintf_loop C (37 :: c :: rest) args negative k
        = kprintf_loop C rest args negative k1 := by
  obtain ⟨h1, h2, h3, h4, h5⟩ := hkey
  have hdir : directive C c args negative = .ok ([37, c, 0], args, negative) := by
    unfold directive
    rw [if_neg h1, if_neg h2, if_neg h3, if_neg h4, if_neg h5]
  obtain ⟨k1, eo, t1, i1, _⟩ := output_ok C negative [37, c, 0] k hk (by simp)
  have hs : c_string [37, c, 0] = [37, c] := by
    unfold c_string
    rw [List.takeWhile_cons_of_pos (by decide), List.takeWhile_cons_of_pos (by simpa using h0),
      List.takeWhile_cons_of_neg (by decide)]
  refine ⟨k1, i1, ?_, ?_⟩
  · rw [t1, hs]
    apply congrArg
    apply map_kputc_event_of_free
    intro x hx
    rcases List.mem_append.mp hx with h | h
    · cases negative
      · simp at h
      · simp only [if_true, List.mem_singleton] at h
        rw [h]; decide
    · simp only [List.mem_cons, List.mem_singleton, List.not_mem_nil, or_false] at h
      rcases h with h | h
      · rw [h]; decide
      · rw [h]; exact hend
  · have hstep : kprintf_loop C (37 :: c :: rest) args negative k
        = (match directive C c args negative with
          | .ok (s, argp1, negative1) =>
            match output C negative1 s k with
            | .ok k1 => kprintf_loop C rest argp1 negative1 k1
            | .error e => .error e
          | .error e => .error e) := rfl
    rw [hstep, hdir]
    simp only []
    rw [eo]

/-- C2 (failing input): after the negative `%d` of the format "%d%q" the
unknown key `q` is echoed as the three characters `-`, `%`, `q`. -/
theorem kprintf_unknown_key_after_negative :
    ∃ k1, kprintf minix_i386 (cstr "%d%q") [Arg.int (-1)] Kernel.init = .ok k1 ∧
      k1.trace = [Event.put 45, Event.put 49, Event.put 45, Event.put 37, Event.put 113,
        Event.send_sig 4 29] :=
  ok_of_trace _ _ (by decide)

/-- C10 (failing input): in the format "%d%u" with the arguments `-1` and `5`
the `%u` that follows the negative `%d` is printed with a `-` in front: the
output is "-1-5". -/
theorem kprintf_sign_leaks :
    ∃ k1, kprintf minix_i386 (cstr "%d%u") [Arg.int (-1), Arg.ulong 5] Kernel.init = .ok k1 ∧
      k1.trace = [Event.put 45, Event.put 49, Event.put 45, Event.put 53,
        Event.send_sig 4 29] :=
  ok_of_trace _ _ (by decide)

theorem wrap_signed_add (w : Nat) (a b : Int) :
    wrap_signed w (wrap_signed w a + b) = wrap_signed w (a + b) := by
  unfold wrap_signed
  have : (a + 2 ^ (w - 1)) % 2 ^ w - 2 ^ (w - 1) + b + 2 ^ (w - 1)
      = (a + 2 ^ (w - 1)) % 2 ^ w + b := by ring
  rw [this, Int.emod_add_emod]
  congr 2
  ring

theorem wrap_signed_ne_zero (w : Nat) (hw : 0 < w) (a : Int) (h0 : 0 < a) (h1 : a < 2 ^ w) :
    wrap_signed w a ≠ 0 := by
  unfold wrap_signed
  have h := two_pow_pred w hw
  have hp : (0 : Int) < 2 ^ (w - 1) := by positivity
  by_cases hlt : a + 2 ^ (w - 1) < 2 ^ w
  · rw [Int.emod_eq_of_lt (by omega) hlt]
    omega
  · have e : (a + 2 ^ (w - 1)) % 2 ^ w = a + 2 ^ (w - 1) - 2 ^ w := by
      rw [Int.emod_eq_sub_self_emod, Int.emod_eq_of_lt (by omega) (by omega)]
    rw [e]
    omega

theorem wrap_signed_pow (w : Nat) (hw : 0 < w) : wrap_signed w (2 ^ w) = 0 := by
  unfold wrap_signed
  have hp : (0 : Int) < 2 ^ (w - 1) := by positivity
  have h := two_pow_pred w hw
  rw [add_comm, Int.add_emod_self, Int.emod_eq_of_lt (by omega) (by omega)]
  omega

/-- A call of `panic` while `panicking` is not zero only counts. -/
theorem panic_suppressed (C : Config) (mess : Option (List Int)) (nr : Int) (k : Kernel)
    (hp : k.panicking ≠ 0) :
    panic C mess nr k
      = .ok { k with panicking := wrap_signed C.INT_BITS (k.panicking + 1) } := by
  unfold panic
  simp [hp]

theorem run_suppressed (C : Config) : ∀ (calls : List (Option (List Int) × Int)) (k : Kernel),
    (∀ i : Nat, i < calls.length → wrap_signed C.INT_BITS (k.panicking + i) ≠ 0) →
    wrap_signed C.INT_BITS k.panicking = k.panicking →
    ∃ kn, run_panics C calls k = .ok kn ∧ kn.trace = k.trace ∧ kn.kmess = k.kmess ∧
      kn.panicking = wrap_signed C.INT_BITS (k.panicking + calls.length) := by
  intro calls
  induction calls with
  | nil =>
    intro k _ hr
    exact ⟨k, rfl, rfl, rfl, by simp [hr]⟩
  | cons call calls ih =>
    intro k hne hr
    obtain ⟨mess, nr⟩ := call
    have hp : k.panicking ≠ 0 := by
      have := hne 0 (by simp)
      simpa [hr] using this
    have hstep : ∀ j : Int, wrap_signed C.INT_BITS
        (wrap_signed C.INT_BITS (k.panicking + 1) + j)
        = wrap_signed C.INT_BITS (k.panicking + (j + 1)) := by
      intro j
      rw [wrap_signed_add]
      congr 1
      ring
    obtain ⟨kn, e, t, b, p⟩ :=
      ih { k with panicking := wrap_signed C.INT_BITS (k.panicking + 1) }
        (by
          intro i hi
          have := hne (i + 1) (by simp; omega)
          simp only [hstep]
          simpa using this)
        (by
          have := wrap_signed_add C.INT_BITS (k.panicking + 1) 0
          simpa using this)
    refine ⟨kn, ?_, t, b, ?_⟩
    · unfold run_panics
      rw [panic_suppressed C mess nr k hp]
      exact e
    · rw [p]
      simp only [hstep, List.length_cons]
      push_cast
      rfl


theorem shutdowns_append (a b : List Event) : shutdowns (a ++ b) = shutdowns a + shutdowns b := by
  induction a with
  | nil => simp [shutdowns]
  | cons e a ih =>
    cases e <;> simp [shutdowns, ih]
    omega

theorem shutdowns_kputc (C : Config) (msg : List Int) :
    shutdowns (msg.map (kputc_event C)) = 0 := by
  induction msg with
  | nil => rfl
  | cons c msg ih =>
    rw [List.map_cons]
    have h : shutdowns (kputc_event C c :: msg.map (kputc_event C))
        = shutdowns (msg.map (kputc_event C)) := by
      by_cases hc : c ≠ END_OF_KMESS
      · have e : kputc_event C c = Event.put c := by unfold kputc_event; rw [if_pos hc]
        rw [e]; rfl
      · have e : kputc_event C c = Event.send_sig C.OUTPUT_PROC_NR C.SIGKMESS := by
          unfold kputc_event; rw [if_neg hc]
        rw [e]; rfl
    rw [h, ih]

/-- What one call of `kprintf` adds to the trace holds no shutdown. -/
theorem kprintf_quiet (C : Config) (fmt : List Int) (args : List Arg) (k : Kernel)
    (hk : index_ok C k) (hw : well_formed C fmt args = true) :
    ∃ (k1 : Kernel) (evs : List Event), kprintf C fmt args k = .ok k1 ∧
      k1.trace = k.trace ++ evs ∧ shutdowns evs = 0 ∧
      index_ok C k1 ∧ k1.panicking = k.panicking := by
  obtain ⟨k1, msg, e, t, i, p, _⟩ := kprintf_ok C fmt args k hk hw
  refine ⟨k1, msg.map (kputc_event C) ++ [Event.send_sig C.OUTPUT_PROC_NR C.SIGKMESS],
    e, by rw [t, List.append_assoc], ?_, i, p⟩
  rw [shutdowns_append, shutdowns_kputc]
  rfl

theorem panic_first (C : Config) (mess : Option (List Int)) (nr : Int) (k : Kernel)
    (hk : index_ok C k) (hp : k.panicking = 0) (hm : ∀ m, mess = some m → (0 : Int) ∈ m) :
    ∃ (k1 : Kernel) (evs : List Event), panic C mess nr k = .ok k1 ∧
      k1.trace = k.trace ++ evs ++ [Event.prepare_shutdown C.RBT_PANIC] ∧
      shutdowns evs = 0 ∧ k1.panicking = wrap_signed C.INT_BITS 1 := by
  unfold panic
  simp only [hp, ne_eq, not_true_eq_false, if_false, zero_add]
  cases mess with
  | none => exact ⟨_, [], rfl, by simp, rfl, rfl⟩
  | some m =>
    have h0 := hm m rfl
    have hk0 : index_ok C { k with panicking := wrap_signed C.INT_BITS 1 } := hk
    have hw1 : well_formed C (cstr "\nKernel panic: %s") [Arg.str (some m)] = true := by
      have : cstr "\nKernel panic: %s"
          = [10, 75, 101, 114, 110, 101, 108, 32, 112, 97, 110, 105, 99, 58, 32, 37, 115, 0] := by
        decide
      rw [this]
      simp [well_formed, terminated, h0]
    obtain ⟨k1, ev1, e1, t1, s1, i1, p1⟩ := kprintf_quiet C _ _ _ hk0 hw1
    have hw3 : well_formed C (cstr "\n") [Arg.int C.NO_NUM] = true := rfl
    simp only [e1]
    by_cases hnr : nr ≠ C.NO_NUM
    · have hw2 : well_formed C (cstr " %d") [Arg.int nr] = true := rfl
      obtain ⟨k2, ev2, e2, t2, s2, i2, p2⟩ := kprintf_quiet C _ _ k1 i1 hw2
      obtain ⟨k3, ev3, e3, t3, s3, i3, p3⟩ := kprintf_quiet C _ _ k2 i2 hw3
      rw [if_pos hnr]
      simp only [e2, e3]
      refine ⟨_, ev1 ++ ev2 ++ ev3, rfl, ?_, ?_, ?_⟩
      · simp [t3, t2, t1]
      · simp [shutdowns_append, s1, s2, s3]
      · show k3.panicking = _
        rw [p3, p2, p1]
    · obtain ⟨k3, ev3, e3, t3, s3, i3, p3⟩ := kprintf_quiet C _ _ k1 i1 hw3
      rw [if_neg hnr]
      simp only [e3]
      refine ⟨_, ev1 ++ ev3, rfl, ?_, ?_, ?_⟩
      · simp [t3, t1]
      · simp [shutdowns_append, s1, s3]
      · show k3.panicking = _
        rw [p3, p1]

/-- C3 (amended): in a sequence of at most `2 ^ (8 * sizeof(int))` calls of
`panic` that starts with `panicking = 0`, the first call returns and invokes
`prepare_shutdown` exactly once, as its last action, and the calls after the
first leave the trace and the message buffer as they are: no output, no
notification, no shutdown.  The state is one whose buffer index is in range
and the first message, if not NULL, is a terminated string. -/
theorem panic_shuts_down_once (C : Config) (mess : Option (List Int)) (nr : Int)
    (calls : List (Option (List Int) × Int)) (k : Kernel)
    (hint : 0 < C.sizeof_int) (hk : index_ok C k) (hp : k.panicking = 0)
    (hm : ∀ m, mess = some m → (0 : Int) ∈ m)
    (hn : (calls.length : Int) < 2 ^ C.INT_BITS) :
    ∃ (k1 kn : Kernel) (evs : List Event),
      panic C mess nr k = .ok k1 ∧
      run_panics C ((mess, nr) :: calls) k = .ok kn ∧
      k1.trace = k.trace ++ evs ++ [Event.prepare_shutdown C.RBT_PANIC] ∧
      shutdowns evs = 0 ∧
      kn.trace = k1.trace ∧ kn.kmess = k1.kmess := by
  have hw : 0 < C.INT_BITS := by unfold Config.INT_BITS; omega
  have hbits : 8 ≤ C.INT_BITS := by unfold Config.INT_BITS; omega
  have h2 : (2 : Int) ^ 1 ≤ 2 ^ (C.INT_BITS - 1) := pow_le_pow_right₀ (by norm_num) (by omega)
  obtain ⟨k1, evs, e1, t1, s1, p1⟩ := panic_first C mess nr k hk hp hm
  have h1 : wrap_signed C.INT_BITS 1 = 1 :=
    wrap_signed_id _ hw 1 (by omega) (by omega)
  rw [h1] at p1
  obtain ⟨kn, en, tn, bn, _⟩ := run_suppressed C calls k1
    (by
      intro i hi
      rw [p1]
      apply wrap_signed_ne_zero _ hw
      · omega
      · have : (i : Int) < calls.length := by exact_mod_cast hi
        omega)
    (by rw [p1, h1])
  refine ⟨k1, kn, evs, e1, ?_, t1, s1, tn, bn⟩
  unfold run_panics
  rw [e1]
  exact en


theorem panic_shuts_down_once_witness :
    0 < minix_i386.sizeof_int ∧ index_ok minix_i386 Kernel.init ∧
    Kernel.init.panicking = 0 ∧
    (([(none, 0), (some (cstr "again"), 1)] : List (Option (List Int) × Int)).length : Int)
      < 2 ^ minix_i386.INT_BITS ∧
    ∃ (k1 kn : Kernel) (evs : List Event),
      panic minix_i386 (some (cstr "boom")) 3 Kernel.init = .ok k1 ∧
      run_panics minix_i386
        ((some (cstr "boom"), 3) :: [(none, 0), (some (cstr "again"), 1)]) Kernel.init
        = .ok kn ∧
      k1.trace = Kernel.init.trace ++ evs ++ [Event.prepare_shutdown minix_i386.RBT_PANIC] ∧
      shutdowns evs = 0 ∧
      kn.trace = k1.trace ∧ kn.kmess = k1.kmess :=
  ⟨by decide, by decide, rfl, by decide,
    panic_shuts_down_once minix_i386 (some (cstr "boom")) 3
      [(none, 0), (some (cstr "again"), 1)] Kernel.init (by decide) (by decide) rfl
      (by intro m h; cases h; decide) (by decide)⟩

theorem run_panics_append (C : Config) : ∀ (a b : List (Option (List Int) × Int)) (k k1 : Kernel),
    run_panics C a k = .ok k1 → run_panics C (a ++ b) k = run_panics C b k1 := by
  intro a
  induction a with
  | nil =>
    intro b k k1 h
    simp only [run_panics, Except.ok.injEq] at h
    rw [← h]; rfl
  | cons call a ih =>
    intro b k k1 h
    obtain ⟨mess, nr⟩ := call
    simp only [List.cons_append, run_panics] at h ⊢
    cases hp : panic C mess nr k with
    | error e => rw [hp] at h; simp at h
    | ok k2 =>
      rw [hp] at h
      simp only [] at h ⊢
      exact ih b k2 k1 h

/-- C3 (counterexample): after `2 ^ 32` calls the 32 bit counter `panicking`
is 0 again, so the call that follows them shuts down a second time. -/
theorem panic_counter_wraps :
    ∃ kn, run_panics minix_i386 (List.replicate (2 ^ 32 + 1) (none, 0)) Kernel.init = .ok kn ∧
      kn.trace = [Event.prepare_shutdown 2, Event.prepare_shutdown 2] := by
  have hsplit : List.replicate (2 ^ 32 + 1) ((none, 0) : Option (List Int) × Int)
      = (none, 0) :: (List.replicate (2 ^ 32 - 1) (none, 0) ++ [(none, 0)]) := by
    have e1 : (2 ^ 32 + 1 : Nat) = (2 ^ 32 - 1 + 1) + 1 := by norm_num
    rw [e1, List.replicate_succ, List.replicate_succ']
  rw [hsplit]
  have hfirst : panic minix_i386 none 0 Kernel.init
      = .ok { Kernel.init with panicking := 1, trace := [Event.prepare_shutdown 2] } := rfl
  obtain ⟨km, em, tm, _, pm⟩ := run_suppressed minix_i386
    (List.replicate (2 ^ 32 - 1) (none, 0))
    { Kernel.init with panicking := 1, trace := [Event.prepare_shutdown 2] }
    (by
      intro i hi
      rw [List.length_replicate] at hi
      apply wrap_signed_ne_zero _ (by decide)
      · show (0 : Int) < 1 + i
        omega
      · show (1 : Int) + i < 2 ^ (8 * 4)
        have : (i : Int) < (2 ^ 32 - 1 : Nat) := by exact_mod_cast hi
        norm_num at this ⊢
        omega)
    (by decide)
  have hpm : km.panicking = 0 := by
    rw [pm, List.length_replicate]
    show wrap_signed (8 * 4) ((1 : Int) + ((2 ^ 32 - 1 : Nat) : Int)) = 0
    have : (1 : Int) + ((2 ^ 32 - 1 : Nat) : Int) = 2 ^ (8 * 4) := by norm_num
    rw [this]
    exact wrap_signed_pow _ (by norm_num)
  have hlast : panic minix_i386 none 0 km
      = .ok { km with panicking := wrap_signed minix_i386.INT_BITS (km.panicking + 1),
                      trace := km.trace ++ [Event.prepare_shutdown 2] } := by
    unfold panic
    simp [hpm]
    rfl
  refine ⟨{ km with panicking := wrap_signed minix_i386.INT_BITS (km.panicking + 1),
                     trace := km.trace ++ [Event.prepare_shutdown 2] }, ?_, ?_⟩
  · unfold run_panics
    rw [hfirst]
    simp only []
    rw [run_panics_append minix_i386 _ _ _ km em]
    unfold run_panics
    rw [hlast]
    rfl
  · simp [tm]


/-! ## Properties of the timer queue -/

theorem Linked_congr (m m1 : Mem) : ∀ (l : List Nat) (p : Option Nat),
    (∀ a ∈ l, (m1 a).tmr_next = (m a).tmr_next) → Linked m p l → Linked m1 p l := by
  intro l
  induction l with
  | nil => intro p _ h; exact h
  | cons a l ih =>
    intro p hm h
    refine ⟨h.1, ?_⟩
    rw [hm a (List.mem_cons_self _ _)]
    exact ih _ (fun b hb => hm b (List.mem_cons_of_mem _ hb)) h.2

theorem Linked_unique (m : Mem) : ∀ (l1 l2 : List Nat) (p : Option Nat),
    Linked m p l1 → Linked m p l2 → l1 = l2 := by
  intro l1
  induction l1 with
  | nil =>
    intro l2 p h1 h2
    cases l2 with
    | nil => rfl
    | cons b l2 =>
      have e1 : p = none := h1
      have e2 : p = some b := h2.1
      rw [e1] at e2
      cases e2
  | cons a l1 ih =>
    intro l2 p h1 h2
    cases l2 with
    | nil =>
      have e1 : p = some a := h1.1
      have e2 : p = none := h2
      rw [e1] at e2
      cases e2
    | cons b l2 =>
      have e1 : p = some a := h1.1
      have e2 : p = some b := h2.1
      rw [e1] at e2
      cases e2
      rw [ih l2 _ h1.2 h2.2]

theorem Linked_tail (m : Mem) : ∀ (l1 l2 : List Nat) (p : Option Nat),
    Linked m p (l1 ++ l2) → ∃ q, Linked m q l2 := by
  intro l1
  induction l1 with
  | nil => intro l2 p h; exact ⟨p, h⟩
  | cons a l1 ih => intro l2 p h; exact ih l2 _ h.2

/-- A queue that ends with a `NULL` link holds no timer twice. -/
theorem Linked_nodup (m : Mem) : ∀ (l : List Nat) (p : Option Nat), Linked m p l → l.Nodup := by
  intro l
  induction l with
  | nil => intro p _; exact List.nodup_nil
  | cons a l ih =>
    intro p h
    refine List.nodup_cons.mpr ⟨?_, ih _ h.2⟩
    intro ha
    obtain ⟨l1, l2, e⟩ := List.append_of_mem ha
    have h2 := h.2
    rw [e] at h2
    obtain ⟨q, hq⟩ := Linked_tail m l1 (a :: l2) _ h2
    have e2 := Linked_unique m l l2 _ h.2 hq.2
    have : l.length = l1.length + (l2.length + 1) := by rw [e]; simp
    rw [e2] at this
    omega

theorem erase_head (a : Nat) (l : List Nat) : (a :: l).erase a = l := by
  simp

theorem erase_other (a tp : Nat) (l : List Nat) (h : a ≠ tp) :
    (a :: l).erase tp = a :: l.erase tp := by
  rw [List.erase_cons_tail]
  simpa using h

theorem unlink_after_spec (tp : Nat) (m : Mem) : ∀ (l : List Nat) (prev fuel : Nat),
    Linked m (some prev) (prev :: l) → prev ≠ tp → l.length < fuel →
    ∃ m1, unlink_after tp fuel m prev = some (m1, decide (tp ∈ l)) ∧
      Linked m1 (some prev) (prev :: l.erase tp) ∧
      (∀ a, (m1 a).tmr_exp_time = (m a).tmr_exp_time) ∧
      (∀ a, a ∉ prev :: l → m1 a = m a) ∧
      (tp ∉ l → m1 = m) := by
  intro l
  induction l with
  | nil =>
    intro prev fuel h _ hf
    obtain ⟨f, rfl⟩ : ∃ f, fuel = f + 1 := ⟨fuel - 1, by simp at hf; omega⟩
    have hn : (m prev).tmr_next = none := h.2
    unfold unlink_after
    rw [hn]
    exact ⟨m, by simp, h, fun _ => rfl, fun _ _ => rfl, fun _ => rfl⟩
  | cons a l ih =>
    intro prev fuel h hne hf
    obtain ⟨f, rfl⟩ : ∃ f, fuel = f + 1 := ⟨fuel - 1, by simp at hf; omega⟩
    have hn : (m prev).tmr_next = some a := h.2.1
    have hnd := Linked_nodup m _ _ h
    have hprev : prev ∉ a :: l := (List.nodup_cons.mp hnd).1
    have hal : a ∉ l := (List.nodup_cons.mp (List.nodup_cons.mp hnd).2).1
    unfold unlink_after
    rw [hn]
    simp only []
    by_cases hat : a = tp
    · subst hat
      rw [if_pos rfl, erase_head]
      refine ⟨m.write prev { m prev with tmr_next := (m a).tmr_next }, ?_,
        ⟨rfl, ?_⟩, ?_, ?_, ?_⟩
      · simp
      · have hw : (m.write prev { m prev with tmr_next := (m a).tmr_next } prev).tmr_next
            = (m a).tmr_next := by simp [Mem.write]
        rw [hw]
        apply Linked_congr m _ l _ _ h.2.2
        intro b hb
        have : b ≠ prev := fun e => hprev (by rw [← e]; exact List.mem_cons_of_mem _ hb)
        simp [Mem.write, this]
      · intro b
        by_cases hb : b = prev
        · simp [Mem.write, hb]
        · simp [Mem.write, hb]
      · intro b hb
        have : b ≠ prev := fun e => hb (by rw [e]; exact List.mem_cons_self _ _)
        simp [Mem.write, this]
      · intro hnot
        exact absurd (List.mem_cons_self _ _) hnot
    · rw [if_neg hat, erase_other a tp l hat]
      have hla : Linked m (some a) (a :: l) := by
        have := h.2
        rw [hn] at this
        exact this
      obtain ⟨m1, e, hl, hexp, hframe, hsame⟩ :=
        ih a f hla hat (by simp at hf; omega)
      have hmem : decide (tp ∈ a :: l) = decide (tp ∈ l) := by
        have : tp ≠ a := fun e => hat e.symm
        simp [this]
      refine ⟨m1, by rw [e, hmem], ⟨rfl, ?_⟩, hexp, ?_, ?_⟩
      · rw [hframe prev hprev, hn]
        exact hl
      · intro b hb
        exact hframe b (fun hb2 => hb (List.mem_cons_of_mem _ hb2))
      · intro hnot
        exact hsame (fun h2 => hnot (List.mem_cons_of_mem _ h2))


theorem unlink_spec (fuel : Nat) (q : TimerQueue) (tp : Nat) (l : List Nat)
    (hl : Linked q.mem q.head l) (hf : l.length < fuel) :
    ∃ q1, unlink fuel q tp = some (q1, decide (tp ∈ l)) ∧
      Linked q1.mem q1.head (l.erase tp) ∧
      (∀ a, (q1.mem a).tmr_exp_time = (q.mem a).tmr_exp_time) ∧
      (tp ∉ l → q1 = q) := by
  obtain ⟨m, hd⟩ := q
  simp only at hl
  unfold unlink
  cases l with
  | nil =>
    have hh : hd = none := hl
    subst hh
    exact ⟨⟨m, none⟩, by simp, rfl, fun _ => rfl, fun _ => rfl⟩
  | cons h l =>
    have hh : hd = some h := hl.1
    subst hh
    simp only []
    by_cases hht : h = tp
    · subst hht
      rw [if_pos rfl, erase_head]
      refine ⟨⟨m, (m h).tmr_next⟩, ?_, hl.2, fun _ => rfl,
        fun hnot => absurd (List.mem_cons_self _ _) hnot⟩
      simp
    · rw [if_neg hht, erase_other h tp l hht]
      obtain ⟨m1, e, hl1, hexp, _, hsame⟩ :=
        unlink_after_spec tp m l h fuel hl hht (by simp at hf; omega)
      rw [e]
      have hmem : decide (tp ∈ h :: l) = decide (tp ∈ l) := by
        have : tp ≠ h := fun e => hht e.symm
        simp [this]
      refine ⟨⟨m1, some h⟩, by rw [hmem], hl1, hexp, ?_⟩
      intro hnot
      rw [hsame (fun h2 => hnot (List.mem_cons_of_mem _ h2))]

theorem mem_erase_nodup (l : List Nat) (tp : Nat) (h : l.Nodup) : tp ∉ l.erase tp :=
  fun hm => ((List.Nodup.mem_erase_iff h).mp hm).1 rfl

theorem clrtimer_spec (C : Config) (fuel : Nat) (q : TimerQueue) (tp : Nat) (l : List Nat)
    (hl : Linked q.mem q.head l) (hf : l.length < fuel) :
    ∃ q2, tmrs_clrtimer C fuel q tp = some (q2, earliest C q2) ∧
      Linked q2.mem q2.head (l.erase tp) ∧
      (∀ a, a ≠ tp → (q2.mem a).tmr_exp_time = (q.mem a).tmr_exp_time) ∧
      (tp ∉ l → q2 = q) := by
  obtain ⟨q1, e, hl1, hexp, hsame⟩ := unlink_spec fuel q tp l hl hf
  have hnot : tp ∉ l.erase tp := mem_erase_nodup l tp (Linked_nodup _ _ _ hl)
  unfold tmrs_clrtimer
  by_cases hin : tp ∈ l
  · rw [decide_eq_true hin] at e
    rw [e]
    refine ⟨⟨q1.mem.write tp
        ⟨none, TMR_NEVER C, (q1.mem tp).tmr_func, (q1.mem tp).tmr_arg⟩, q1.head⟩, rfl, ?_, ?_,
      fun h2 => absurd hin h2⟩
    · apply Linked_congr q1.mem _ _ _ _ hl1
      intro a ha
      have : a ≠ tp := fun e2 => hnot (e2 ▸ ha)
      simp [Mem.write, this]
    · intro a ha
      simp [Mem.write, ha, hexp]
  · rw [decide_eq_false hin] at e
    rw [e]
    exact ⟨q1, rfl, hl1, fun a _ => hexp a, hsame⟩

theorem mem_place (m : Mem) (tp : Nat) (e : Int) (b : Nat) : ∀ (l : List Nat),
    b ∈ place m tp e l ↔ b = tp ∨ b ∈ l := by
  intro l
  induction l with
  | nil => simp [place]
  | cons a l ih =>
    unfold place
    by_cases h : e < (m a).tmr_exp_time
    · rw [if_pos h]; simp
    · rw [if_neg h]
      simp only [List.mem_cons, ih]
      tauto

theorem length_place (m : Mem) (tp : Nat) (e : Int) : ∀ (l : List Nat),
    (place m tp e l).length = l.length + 1 := by
  intro l
  induction l with
  | nil => rfl
  | cons a l ih =>
    unfold place
    by_cases h : e < (m a).tmr_exp_time
    · rw [if_pos h]; rfl
    · rw [if_neg h]; simp [ih]

theorem place_congr (m m1 : Mem) (tp : Nat) (e : Int) : ∀ (l : List Nat),
    (∀ a ∈ l, (m1 a).tmr_exp_time = (m a).tmr_exp_time) →
    place m1 tp e l = place m tp e l := by
  intro l
  induction l with
  | nil => intro _; rfl
  | cons a l ih =>
    intro h
    unfold place
    rw [h a (List.mem_cons_self _ _), ih (fun b hb => h b (List.mem_cons_of_mem _ hb))]

theorem place_perm (m : Mem) (tp : Nat) (e : Int) : ∀ (l : List Nat),
    (place m tp e l).Perm (tp :: l) := by
  intro l
  induction l with
  | nil => exact List.Perm.refl _
  | cons a l ih =>
    unfold place
    by_cases h : e < (m a).tmr_exp_time
    · rw [if_pos h]
    · rw [if_neg h]
      exact (List.Perm.cons a ih).trans (List.Perm.swap tp a l)

theorem place_erase (m : Mem) (tp : Nat) (e : Int) : ∀ (l : List Nat), tp ∉ l →
    (place m tp e l).erase tp = l := by
  intro l
  induction l with
  | nil => intro _; simp [place]
  | cons a l ih =>
    intro h
    have hne : a ≠ tp := fun e2 => h (by rw [e2]; exact List.mem_cons_self _ _)
    unfold place
    by_cases hlt : e < (m a).tmr_exp_time
    · rw [if_pos hlt, erase_head]
    · rw [if_neg hlt, erase_other a tp _ hne,
        ih (fun h2 => h (List.mem_cons_of_mem _ h2))]

theorem place_ordered (m : Mem) (tp : Nat) (e : Int) (he : (m tp).tmr_exp_time = e) :
    ∀ (l : List Nat), Ordered m l → Ordered m (place m tp e l) := by
  intro l
  induction l with
  | nil => intro _; simp [place, Ordered]
  | cons a l ih =>
    intro h
    have h1 := List.pairwise_cons.mp h
    unfold place
    by_cases hlt : e < (m a).tmr_exp_time
    · rw [if_pos hlt]
      refine List.pairwise_cons.mpr ⟨?_, h⟩
      intro b hb
      rw [he]
      rcases List.mem_cons.mp hb with hb | hb
      · rw [hb]; omega
      · have := h1.1 b hb
        omega
    · rw [if_neg hlt]
      refine List.pairwise_cons.mpr ⟨?_, ih h1.2⟩
      intro b hb
      rcases (mem_place m tp e b l).mp hb with hb | hb
      · rw [hb, he]; omega
      · exact h1.1 b hb

theorem Ordered_congr (m m1 : Mem) (l : List Nat)
    (h : ∀ a ∈ l, (m1 a).tmr_exp_time = (m a).tmr_exp_time) (ho : Ordered m l) :
    Ordered m1 l := by
  unfold Ordered at ho ⊢
  induction l with
  | nil => exact List.Pairwise.nil
  | cons a l ih =>
    have h1 := List.pairwise_cons.mp ho
    refine List.pairwise_cons.mpr ⟨?_, ih (fun b hb => h b (List.mem_cons_of_mem _ hb)) h1.2⟩
    intro b hb
    rw [h a (List.mem_cons_self _ _), h b (List.mem_cons_of_mem _ hb)]
    exact h1.1 b hb


theorem Linked_nil (m : Mem) (p : Option Nat) : Linked m p [] ↔ p = none := Iff.rfl

theorem Linked_cons (m : Mem) (p : Option Nat) (a : Nat) (l : List Nat) :
    Linked m p (a :: l) ↔ p = some a ∧ Linked m (m a).tmr_next l := Iff.rfl

theorem write_same (m : Mem) (a : Nat) (t : timer) : m.write a t a = t := by
  simp [Mem.write]

theorem write_other (m : Mem) (a : Nat) (t : timer) (b : Nat) (h : b ≠ a) :
    m.write a t b = m b := by
  simp [Mem.write, h]

/-- The two assignments that put `tp` between `prev` and `next`. -/
theorem link_spec (m : Mem) (tp prev : Nat) (next : Option Nat) (hne : tp ≠ prev) :
    ∀ m2, m2 = (m.write tp { m tp with tmr_next := next }).write prev
        { (m.write tp { m tp with tmr_next := next }) prev with tmr_next := some tp } →
    (m2 prev).tmr_next = some tp ∧ (m2 tp).tmr_next = next ∧
      (∀ b, b ≠ tp → b ≠ prev → m2 b = m b) ∧
      (∀ b, (m2 b).tmr_exp_time = (m b).tmr_exp_time) := by
  intro m2 h2
  subst h2
  refine ⟨?_, ?_, ?_, ?_⟩
  · rw [write_same]
  · rw [write_other _ _ _ _ hne, write_same]
  · intro b h1 h3
    rw [write_other _ _ _ _ h3, write_other _ _ _ _ h1]
  · intro b
    by_cases h1 : b = prev
    · subst h1
      rw [write_same]
      show ((m.write tp { m tp with tmr_next := next }) b).tmr_exp_time = _
      rw [write_other _ _ _ _ (Ne.symm hne)]
    · rw [write_other _ _ _ _ h1]
      by_cases h3 : b = tp
      · subst h3
        rw [write_same]
      · rw [write_other _ _ _ _ h3]

theorem insert_after_spec (tp : Nat) (e : Int) (m : Mem) : ∀ (l : List Nat) (prev fuel : Nat),
    Linked m (some prev) (prev :: l) → tp ∉ prev :: l → l.length < fuel →
    ∃ m1, insert_after tp e fuel m prev = some m1 ∧
      Linked m1 (some prev) (prev :: place m tp e l) ∧
      (∀ a, (m1 a).tmr_exp_time = (m a).tmr_exp_time) ∧
      (∀ a, a ≠ tp → a ∉ prev :: l → m1 a = m a) := by
  intro l
  induction l with
  | nil =>
    intro prev fuel h htp hf
    obtain ⟨f, rfl⟩ : ∃ f, fuel = f + 1 := ⟨fuel - 1, by simp at hf; omega⟩
    have hn : (m prev).tmr_next = none := h.2
    have hne : tp ≠ prev := fun e2 => htp (e2 ▸ List.mem_cons_self _ _)
    obtain ⟨k1, k2, k3, k4⟩ := link_spec m tp prev none hne _ rfl
    unfold insert_after
    rw [hn]
    refine ⟨_, rfl, ?_, k4, ?_⟩
    · refine (Linked_cons _ _ _ _).mpr ⟨rfl, ?_⟩
      rw [k1]
      refine (Linked_cons _ _ _ _).mpr ⟨rfl, ?_⟩
      rw [k2]
      exact (Linked_nil _ _).mpr rfl
    · intro a h1 h2
      exact k3 a h1 (fun e2 => h2 (e2 ▸ List.mem_cons_self _ _))
  | cons a l ih =>
    intro prev fuel h htp hf
    obtain ⟨f, rfl⟩ : ∃ f, fuel = f + 1 := ⟨fuel - 1, by simp at hf; omega⟩
    have hn : (m prev).tmr_next = some a := h.2.1
    have hla : Linked m (some a) (a :: l) := by
      have := h.2
      rw [hn] at this
      exact this
    have hnd := Linked_nodup m _ _ h
    have hprev : prev ∉ a :: l := (List.nodup_cons.mp hnd).1
    have hne : tp ≠ prev := fun e2 => htp (e2 ▸ List.mem_cons_self _ _)
    have htl : tp ∉ a :: l := fun h2 => htp (List.mem_cons_of_mem _ h2)
    have hta : a ≠ tp := fun e2 => htl (e2 ▸ List.mem_cons_self _ _)
    have hpa : a ≠ prev := fun e2 => hprev (e2 ▸ List.mem_cons_self _ _)
    unfold insert_after place
    rw [hn]
    simp only []
    by_cases hlt : e < (m a).tmr_exp_time
    · rw [if_pos hlt, if_pos hlt]
      obtain ⟨k1, k2, k3, k4⟩ := link_spec m tp prev (some a) hne _ rfl
      refine ⟨_, rfl, ?_, k4, ?_⟩
      · refine (Linked_cons _ _ _ _).mpr ⟨rfl, ?_⟩
        rw [k1]
        refine (Linked_cons _ _ _ _).mpr ⟨rfl, ?_⟩
        rw [k2]
        refine (Linked_cons _ _ _ _).mpr ⟨rfl, ?_⟩
        rw [k3 a hta hpa]
        apply Linked_congr m _ l _ _ hla.2
        intro b hb
        have h1 : b ≠ prev := fun e2 => hprev (e2 ▸ List.mem_cons_of_mem _ hb)
        have h2 : b ≠ tp := fun e2 => htl (e2 ▸ List.mem_cons_of_mem _ hb)
        rw [k3 b h2 h1]
      · intro b h1 h2
        exact k3 b h1 (fun e2 => h2 (e2 ▸ List.mem_cons_self _ _))
    · rw [if_neg hlt, if_neg hlt]
      obtain ⟨m1, e1, hl1, hexp, hframe⟩ := ih a f hla htl (by simp at hf; omega)
      refine ⟨m1, e1, ?_, hexp, ?_⟩
      · refine (Linked_cons _ _ _ _).mpr ⟨rfl, ?_⟩
        rw [hframe prev (Ne.symm hne) hprev, hn]
        exact hl1
      · intro b h1 h2
        exact hframe b h1 (fun h3 => h2 (List.mem_cons_of_mem _ h3))

theorem insert_spec (fuel : Nat) (q : TimerQueue) (tp : Nat) (e : Int) (l : List Nat)
    (hl : Linked q.mem q.head l) (htp : tp ∉ l) (hf : l.length < fuel) :
    ∃ q1, insert fuel q tp e = some q1 ∧
      Linked q1.mem q1.head (place q.mem tp e l) ∧
      (∀ a, (q1.mem a).tmr_exp_time = (q.mem a).tmr_exp_time) := by
  obtain ⟨m, hd⟩ := q
  simp only at hl ⊢
  have hw : ∀ (p : Option Nat) (a : Nat),
      ((m.write tp { m tp with tmr_next := p }) a).tmr_exp_time = (m a).tmr_exp_time := by
    intro p a
    by_cases h1 : a = tp
    · subst h1; rw [write_same]
    · rw [write_other _ _ _ _ h1]
  have hat : ∀ (p : Option Nat), Linked m p l →
      Linked (m.write tp { m tp with tmr_next := p }) (some tp) (tp :: l) := by
    intro p hp
    refine (Linked_cons _ _ _ _).mpr ⟨rfl, ?_⟩
    rw [write_same]
    apply Linked_congr m _ l _ _ hp
    intro b hb
    have : b ≠ tp := fun e2 => htp (e2 ▸ hb)
    rw [write_other _ _ _ _ this]
  unfold insert
  cases l with
  | nil =>
    have hh : hd = none := hl
    subst hh
    exact ⟨_, rfl, hat none hl, hw none⟩
  | cons h l =>
    have hh : hd = some h := hl.1
    subst hh
    simp only []
    unfold place
    by_cases hlt : e < (m h).tmr_exp_time
    · rw [if_pos hlt, if_pos hlt]
      exact ⟨_, rfl, hat (some h) hl, hw (some h)⟩
    · rw [if_neg hlt, if_neg hlt]
      obtain ⟨m1, e1, hl1, hexp, _⟩ :=
        insert_after_spec tp e m l h fuel hl htp (by simp at hf; omega)
      rw [e1]
      exact ⟨⟨m1, some h⟩, rfl, hl1, hexp⟩

theorem settimer_spec (C : Config) (fuel : Nat) (q : TimerQueue) (tp : Nat) (e : Int)
    (watchdog : Nat) (l : List Nat) (hl : Linked q.mem q.head l) (hf : l.length < fuel) :
    ∃ q3, tmrs_settimer C fuel q tp e watchdog = some (q3, earliest C q3) ∧
      Linked q3.mem q3.head (place q.mem tp e (l.erase tp)) ∧
      (q3.mem tp).tmr_exp_time = e ∧
      (∀ a, a ≠ tp → (q3.mem a).tmr_exp_time = (q.mem a).tmr_exp_time) := by
  obtain ⟨q1, e1, hl1, hexp1, _⟩ := unlink_spec fuel q tp l hl hf
  have hnot : tp ∉ l.erase tp := mem_erase_nodup l tp (Linked_nodup _ _ _ hl)
  have hlen : (l.erase tp).length < fuel :=
    lt_of_le_of_lt (List.erase_sublist tp l).length_le hf
  obtain ⟨m2, hm2⟩ : ∃ m2 : Mem, m2 = q1.mem.write tp
      ⟨(q1.mem tp).tmr_next, e, watchdog, (q1.mem tp).tmr_arg⟩ := ⟨_, rfl⟩
  have hm2tp : (m2 tp).tmr_exp_time = e := by rw [hm2, write_same]
  have hm2o : ∀ a, a ≠ tp → m2 a = q1.mem a := by
    intro a ha
    rw [hm2, write_other _ _ _ _ ha]
  have hl2 : Linked m2 q1.head (l.erase tp) := by
    apply Linked_congr q1.mem _ _ _ _ hl1
    intro a ha
    rw [hm2o a (fun e2 => hnot (e2 ▸ ha))]
  obtain ⟨q3, e3, hl3, hexp3⟩ := insert_spec fuel ⟨m2, q1.head⟩ tp e (l.erase tp) hl2 hnot hlen
  have hstep : tmrs_settimer C fuel q tp e watchdog = some (q3, earliest C q3) := by
    unfold tmrs_settimer
    rw [e1]
    simp only []
    rw [← hm2, e3]
  refine ⟨q3, hstep, ?_, ?_, ?_⟩
  · have hp : place q.mem tp e (l.erase tp) = place m2 tp e (l.erase tp) := by
      symm
      apply place_congr
      intro a ha
      rw [hm2o a (fun e2 => hnot (e2 ▸ ha)), hexp1]
    rw [hp]
    exact hl3
  · rw [hexp3]
    exact hm2tp
  · intro a ha
    rw [hexp3]
    show (m2 a).tmr_exp_time = _
    rw [hm2o a ha, hexp1]

theorem erase_ordered (m : Mem) (l : List Nat) (tp : Nat) (ho : Ordered m l) :
    Ordered m (l.erase tp) :=
  List.Pairwise.sublist (List.erase_sublist tp l) ho

/-- One call of `tmrs_settimer` on an ordered queue gives an ordered queue that
is at most one timer longer. -/
theorem settimer_ordered (C : Config) (fuel : Nat) (q : TimerQueue) (tp : Nat) (e : Int)
    (watchdog : Nat) (l : List Nat) (hl : Linked q.mem q.head l) (ho : Ordered q.mem l)
    (hf : l.length < fuel) :
    ∃ q1 l1, tmrs_settimer C fuel q tp e watchdog = some (q1, earliest C q1) ∧
      Linked q1.mem q1.head l1 ∧ Ordered q1.mem l1 ∧ l1.length ≤ l.length + 1 := by
  obtain ⟨q3, e3, hl3, htp, hexp⟩ := settimer_spec C fuel q tp e watchdog l hl hf
  have hnot : tp ∉ l.erase tp := mem_erase_nodup l tp (Linked_nodup _ _ _ hl)
  have hsame : ∀ a ∈ l.erase tp, (q3.mem a).tmr_exp_time = (q.mem a).tmr_exp_time :=
    fun a ha => hexp a (fun e2 => hnot (e2 ▸ ha))
  have hp : place q3.mem tp e (l.erase tp) = place q.mem tp e (l.erase tp) :=
    place_congr q.mem q3.mem tp e _ hsame
  refine ⟨q3, place q.mem tp e (l.erase tp), e3, hl3, ?_, ?_⟩
  · rw [← hp]
    exact place_ordered q3.mem tp e htp _
      (Ordered_congr q.mem q3.mem _ hsame (erase_ordered q.mem l tp ho))
  · rw [length_place]
    have := (List.erase_sublist tp l).length_le
    omega

/-- One call of `tmrs_clrtimer` on an ordered queue gives an ordered queue that
is not longer. -/
theorem clrtimer_ordered (C : Config) (fuel : Nat) (q : TimerQueue) (tp : Nat) (l : List Nat)
    (hl : Linked q.mem q.head l) (ho : Ordered q.mem l) (hf : l.length < fuel) :
    ∃ q1 l1, tmrs_clrtimer C fuel q tp = some (q1, earliest C q1) ∧
      Linked q1.mem q1.head l1 ∧ Ordered q1.mem l1 ∧ l1.length ≤ l.length := by
  obtain ⟨q2, e2, hl2, hexp, _⟩ := clrtimer_spec C fuel q tp l hl hf
  have hnot : tp ∉ l.erase tp := mem_erase_nodup l tp (Linked_nodup _ _ _ hl)
  refine ⟨q2, l.erase tp, e2, hl2, ?_, (List.erase_sublist tp l).length_le⟩
  exact Ordered_congr q.mem q2.mem _ (fun a ha => hexp a (fun e3 => hnot (e3 ▸ ha)))
    (erase_ordered q.mem l tp ho)

/-- C6: for every queue whose traversal `l` is ordered and every finite
sequence of calls of `tmrs_settimer` and `tmrs_clrtimer` applied to it (each
walk being given more steps than the queue can get long), the sequence runs
to its end and the traversal of the resulting queue from its head yields
expiration times in non-decreasing order. -/
theorem queue_stays_ordered (C : Config) (fuel : Nat) (ops : List TimerOp) :
    ∀ (q : TimerQueue) (l : List Nat), Linked q.mem q.head l → Ordered q.mem l →
    l.length + ops.length < fuel →
    ∃ q1 l1, run_ops C fuel ops q = some q1 ∧ Linked q1.mem q1.head l1 ∧
      Ordered q1.mem l1 := by
  induction ops with
  | nil =>
    intro q l hl ho _
    exact ⟨q, l, rfl, hl, ho⟩
  | cons op ops ih =>
    intro q l hl ho hf
    simp only [List.length_cons] at hf
    cases op with
    | set tp e watchdog =>
      obtain ⟨q1, l1, e1, hl1, ho1, hlen⟩ :=
        settimer_ordered C fuel q tp e watchdog l hl ho (by omega)
      obtain ⟨q2, l2, e2, hl2, ho2⟩ := ih q1 l1 hl1 ho1 (by omega)
      refine ⟨q2, l2, ?_, hl2, ho2⟩
      unfold run_ops
      rw [e1]
      exact e2
    | clr tp =>
      obtain ⟨q1, l1, e1, hl1, ho1, hlen⟩ := clrtimer_ordered C fuel q tp l hl ho (by omega)
      obtain ⟨q2, l2, e2, hl2, ho2⟩ := ih q1 l1 hl1 ho1 (by omega)
      refine ⟨q2, l2, ?_, hl2, ho2⟩
      unfold run_ops
      rw [e1]
      exact e2

theorem queue_stays_ordered_witness :
    Linked four_timers.mem four_timers.head [1, 2, 3, 4] ∧
    Ordered four_timers.mem [1, 2, 3, 4] ∧
    ([1, 2, 3, 4] : List Nat).length
      + [TimerOp.set 5 7 0, TimerOp.clr 2, TimerOp.set 1 30 0].length < 8 ∧
    ∃ q1 l1, run_ops minix_i386 8 [TimerOp.set 5 7 0, TimerOp.clr 2, TimerOp.set 1 30 0]
        four_timers = some q1 ∧ Linked q1.mem q1.head l1 ∧ Ordered q1.mem l1 :=
  ⟨by decide, by decide, by decide,
    queue_stays_ordered minix_i386 8 [TimerOp.set 5 7 0, TimerOp.clr 2, TimerOp.set 1 30 0]
      four_timers [1, 2, 3, 4] (by decide) (by decide) (by decide)⟩

/-- C9: for every queue `q` with traversal `l` and every node `n` that is not
in `l`, `tmrs_clrtimer(q, n)` returns, leaves the queue as it is (the same
store and the same head, so the same nodes in the same order), and reports
the earliest deadline of the unchanged queue. -/
theorem clrtimer_absent (C : Config) (fuel : Nat) (q : TimerQueue) (n : Nat) (l : List Nat)
    (hl : Linked q.mem q.head l) (hn : n ∉ l) (hf : l.length < fuel) :
    tmrs_clrtimer C fuel q n = some (q, earliest C q) ∧
      earliest C q = first_deadline C q.mem l := by
  obtain ⟨q2, e2, _, _, hsame⟩ := clrtimer_spec C fuel q n l hl hf
  have := hsame hn
  subst this
  refine ⟨e2, ?_⟩
  unfold earliest first_deadline
  cases l with
  | nil =>
    have hh : q2.head = none := hl
    rw [hh]
  | cons a l =>
    have hh : q2.head = some a := hl.1
    rw [hh]

theorem clrtimer_absent_witness :
    Linked four_timers.mem four_timers.head [1, 2, 3, 4] ∧ (7 : Nat) ∉ [1, 2, 3, 4] ∧
    ([1, 2, 3, 4] : List Nat).length < 8 ∧
    tmrs_clrtimer minix_i386 8 four_timers 7 = some (four_timers, earliest minix_i386 four_timers) ∧
      earliest minix_i386 four_timers = first_deadline minix_i386 four_timers.mem [1, 2, 3, 4] :=
  ⟨by decide, by decide, by decide,
    clrtimer_absent minix_i386 8 four_timers 7 [1, 2, 3, 4] (by decide) (by decide) (by decide)⟩

/-- C7: for every queue `q` with traversal `l`, node `n`, callback `cb` and
deadlines `d1` and `d2`, the calls `tmrs_settimer(q, n, d1, cb)` and then
`tmrs_settimer(q, n, d2, cb)` both return and leave a queue in which `n`
occurs exactly once, with expiration time `d2`, next to the other timers of
`q`: the second call first removes the `n` the first call put in. -/
theorem settimer_twice (C : Config) (fuel : Nat) (q : TimerQueue) (n : Nat) (d1 d2 : Int)
    (cb : Nat) (l : List Nat) (hl : Linked q.mem q.head l) (hf : l.length + 1 < fuel) :
    ∃ q1 r1 q2 r2 l2, tmrs_settimer C fuel q n d1 cb = some (q1, r1) ∧
      tmrs_settimer C fuel q1 n d2 cb = some (q2, r2) ∧
      Linked q2.mem q2.head l2 ∧ l2.count n = 1 ∧ (q2.mem n).tmr_exp_time = d2 ∧
      l2.Perm (n :: l.erase n) := by
  have hnot : n ∉ l.erase n := mem_erase_nodup l n (Linked_nodup _ _ _ hl)
  have hlen := (List.erase_sublist n l).length_le
  obtain ⟨q1, e1, hl1, _, _⟩ := settimer_spec C fuel q n d1 cb l hl (by omega)
  obtain ⟨q2, e2, hl2, hd2, _⟩ := settimer_spec C fuel q1 n d2 cb
    (place q.mem n d1 (l.erase n)) hl1 (by rw [length_place]; omega)
  rw [place_erase q.mem n d1 _ hnot] at hl2
  have hperm := place_perm q1.mem n d2 (l.erase n)
  refine ⟨q1, _, q2, _, _, e1, e2, hl2, ?_, hd2, hperm⟩
  rw [hperm.count_eq, List.count_cons_self, List.count_eq_zero_of_not_mem hnot]

theorem settimer_twice_witness :
    Linked four_timers.mem four_timers.head [1, 2, 3, 4] ∧
    ([1, 2, 3, 4] : List Nat).length + 1 < 8 ∧
    ∃ q1 r1 q2 r2 l2, tmrs_settimer minix_i386 8 four_timers 2 15 0 = some (q1, r1) ∧
      tmrs_settimer minix_i386 8 q1 2 7 0 = some (q2, r2) ∧
      Linked q2.mem q2.head l2 ∧ l2.count 2 = 1 ∧ (q2.mem 2).tmr_exp_time = 7 ∧
      l2.Perm (2 :: [1, 2, 3, 4].erase 2) :=
  ⟨by decide, by decide,
    settimer_twice minix_i386 8 four_timers 2 15 7 0 [1, 2, 3, 4] (by decide) (by decide)⟩

theorem earliest_eq (C : Config) (q : TimerQueue) (l : List Nat)
    (hl : Linked q.mem q.head l) : earliest C q = first_deadline C q.mem l := by
  unfold earliest first_deadline
  cases l with
  | nil =>
    have hh : q.head = none := hl
    rw [hh]
  | cons a l =>
    have hh : q.head = some a := hl.1
    rw [hh]

theorem exptimers_loop_spec (C : Config) (run : Watchdogs) (now : Int)
    (hrun : ∀ f tp s, run f tp s = s) : ∀ (l : List Nat) (q : TimerQueue) (fuel : Nat),
    Linked q.mem q.head l → Ordered q.mem l → l.length < fuel →
    ∃ q1, exptimers_loop C run now fuel q
        = some (q1, l.filter (fun a => decide ((q.mem a).tmr_exp_time ≤ now))) ∧
      Linked q1.mem q1.head (l.filter (fun a => decide (now < (q.mem a).tmr_exp_time))) ∧
      (∀ a, (now < (q.mem a).tmr_exp_time ∨ a ∉ l) → q1.mem a = q.mem a) ∧
      (∀ a ∈ l, (q.mem a).tmr_exp_time ≤ now →
        (q1.mem a).tmr_next = none ∧ (q1.mem a).tmr_exp_time = TMR_NEVER C) := by
  intro l
  induction l with
  | nil =>
    intro q fuel hl _ hf
    obtain ⟨f, rfl⟩ : ∃ f, fuel = f + 1 := ⟨fuel - 1, by omega⟩
    have hh : q.head = none := hl
    unfold exptimers_loop
    rw [hh]
    refine ⟨q, rfl, ?_, fun _ _ => rfl, ?_⟩
    · exact (Linked_nil _ _).mpr hh
    · intro a ha
      simp at ha
  | cons a l ih =>
    intro q fuel hl ho hf
    obtain ⟨m, hd⟩ := q
    simp only at hl ho ⊢
    obtain ⟨f, rfl⟩ : ∃ f, fuel = f + 1 := ⟨fuel - 1, by omega⟩
    have hh : hd = some a := hl.1
    subst hh
    have hnd := Linked_nodup m _ _ hl
    have hal : a ∉ l := (List.nodup_cons.mp hnd).1
    have ho1 := List.pairwise_cons.mp ho
    unfold exptimers_loop
    simp only []
    by_cases hdue : (m a).tmr_exp_time ≤ now
    · rw [if_pos hdue, hrun]
      obtain ⟨m1, hm1⟩ : ∃ m1 : Mem, m1 = m.write a
          ⟨none, TMR_NEVER C, (m a).tmr_func, (m a).tmr_arg⟩ := ⟨_, rfl⟩
      have hm1o : ∀ b, b ≠ a → m1 b = m b := by
        intro b hb
        rw [hm1, write_other _ _ _ _ hb]
      have hm1l : ∀ b ∈ l, m1 b = m b := fun b hb => hm1o b (fun e2 => hal (e2 ▸ hb))
      have hl1 : Linked m1 (m a).tmr_next l := by
        apply Linked_congr m _ l _ _ hl.2
        intro b hb
        rw [hm1l b hb]
      have ho2 : Ordered m1 l :=
        Ordered_congr m m1 l (fun b hb => by rw [hm1l b hb]) ho1.2
      obtain ⟨q1, e1, hq1, hkeep, hidle⟩ := ih ⟨m1, (m a).tmr_next⟩ f hl1 ho2
        (by simp at hf; omega)
      simp only at e1 hq1 hkeep hidle
      rw [← hm1, e1]
      have hf1 : l.filter (fun b => decide ((m1 b).tmr_exp_time ≤ now))
          = l.filter (fun b => decide ((m b).tmr_exp_time ≤ now)) :=
        List.filter_congr (fun b hb => by rw [hm1l b hb])
      have hf2 : l.filter (fun b => decide (now < (m1 b).tmr_exp_time))
          = l.filter (fun b => decide (now < (m b).tmr_exp_time)) :=
        List.filter_congr (fun b hb => by rw [hm1l b hb])
      refine ⟨q1, ?_, ?_, ?_, ?_⟩
      · rw [hf1, List.filter_cons_of_pos (by simpa using hdue)]
      · rw [List.filter_cons_of_neg (by simpa using hdue), ← hf2]
        exact hq1
      · intro b hb
        have hba : b ≠ a := by
          intro e2
          subst e2
          rcases hb with hb | hb
          · omega
          · exact hb (List.mem_cons_self _ _)
        rw [← hm1o b hba]
        apply hkeep
        rcases hb with hb | hb
        · left; rw [hm1o b hba]; exact hb
        · right; exact fun h2 => hb (List.mem_cons_of_mem _ h2)
      · intro b hb hbdue
        rcases List.mem_cons.mp hb with hb | hb
        · subst hb
          have : q1.mem b = m1 b := hkeep b (Or.inr hal)
          rw [this, hm1, write_same]
          exact ⟨rfl, rfl⟩
        · apply hidle b hb
          rw [hm1l b hb]
          exact hbdue
    · rw [if_neg hdue]
      have hall : ∀ b ∈ a :: l, now < (m b).tmr_exp_time := by
        intro b hb
        rcases List.mem_cons.mp hb with hb | hb
        · rw [hb]; omega
        · have := ho1.1 b hb
          omega
      refine ⟨⟨m, some a⟩, ?_, ?_, fun _ _ => rfl, ?_⟩
      · rw [List.filter_eq_nil_iff.mpr (fun b hb => by
          have := hall b hb
          simp
          omega)]
      · rw [List.filter_eq_self.mpr (fun b hb => by simpa using hall b hb)]
        exact hl
      · intro b hb hbdue
        have := hall b hb
        omega

/-- C8 (amended): on a queue with ordered traversal `l`, with watchdog functions
that leave the queue alone, `tmrs_exptimers(q, now)` returns; the timers that fire
are exactly those of `l` whose expiration time is `<= now`, in the order of
`l` (ascending deadlines, and the order of insertion among equal ones); each
of them is unlinked and inactive afterwards; the queue that is left consists
of the other timers, unchanged and in their order; and the new head reported
is the expiration time of the first timer left, or TMR_NEVER when none is
left. -/
theorem exptimers_fires_due (C : Config) (run : Watchdogs) (fuel : Nat) (q : TimerQueue)
    (l : List Nat) (now : Int) (hl : Linked q.mem q.head l) (ho : Ordered q.mem l)
    (hrun : ∀ f tp s, run f tp s = s) (hf : l.length < fuel) :
    ∃ q1, tmrs_exptimers C run fuel q now
        = some (q1,
            first_deadline C q.mem (l.filter (fun a => decide (now < (q.mem a).tmr_exp_time))),
            l.filter (fun a => decide ((q.mem a).tmr_exp_time ≤ now))) ∧
      Linked q1.mem q1.head (l.filter (fun a => decide (now < (q.mem a).tmr_exp_time))) ∧
      (∀ a ∈ l, now < (q.mem a).tmr_exp_time → q1.mem a = q.mem a) ∧
      (∀ a ∈ l, (q.mem a).tmr_exp_time ≤ now →
        (q1.mem a).tmr_next = none ∧ (q1.mem a).tmr_exp_time = TMR_NEVER C) := by
  obtain ⟨q1, e1, hl1, hkeep, hidle⟩ := exptimers_loop_spec C run now hrun l q fuel hl ho hf
  refine ⟨q1, ?_, hl1, fun a _ ha => hkeep a (Or.inl ha), hidle⟩
  unfold tmrs_exptimers
  rw [e1]
  simp only []
  rw [earliest_eq C q1 _ hl1]
  cases hrem : l.filter (fun a => decide (now < (q.mem a).tmr_exp_time)) with
  | nil => rfl
  | cons a rest =>
    have ha : a ∈ l.filter (fun a => decide (now < (q.mem a).tmr_exp_time)) := by
      rw [hrem]; exact List.mem_cons_self _ _
    have hlt : now < (q.mem a).tmr_exp_time := by
      simpa using (List.mem_filter.mp ha).2
    show some (q1, (q1.mem a).tmr_exp_time, _) = some (q1, (q.mem a).tmr_exp_time, _)
    rw [hkeep a (Or.inl hlt)]

theorem some_getD (o : Option TimerQueue) (d : TimerQueue) (h : o.isSome = true) :
    o = some (o.getD d) := by
  cases o with
  | none => simp at h
  | some x => rfl

/-- C8 (amended, scenario): the timers 1, 2, 3 and 4, set in this order to the
deadlines 5, 10, 10 and 20, form the queue 1, 2, 3, 4; with watchdog functions
that do nothing, `tmrs_exptimers` with `now = 10` fires 1, 2, 3 in this order,
leaves the queue that holds timer 4 alone, and reports the new head deadline
20. -/
theorem exptimers_fires_due_witness :
    run_ops minix_i386 8 four_sets (empty_queue minix_i386) = some four_timers ∧
    Linked four_timers.mem four_timers.head [1, 2, 3, 4] ∧
    Ordered four_timers.mem [1, 2, 3, 4] ∧
    ∃ q1, tmrs_exptimers minix_i386 (fun _ _ s => s) 8 four_timers 10
        = some (q1, 20, [1, 2, 3]) ∧
      Linked q1.mem q1.head [4] := by
  have h := exptimers_fires_due minix_i386 (fun _ _ s => s) 8 four_timers [1, 2, 3, 4] 10
    (by decide) (by decide) (fun _ _ _ => rfl) (by decide)
  have f1 : [1, 2, 3, 4].filter (fun a => decide ((four_timers.mem a).tmr_exp_time ≤ 10))
      = [1, 2, 3] := by decide
  have f2 : [1, 2, 3, 4].filter (fun a => decide (10 < (four_timers.mem a).tmr_exp_time))
      = [4] := by decide
  have f3 : first_deadline minix_i386 four_timers.mem [4] = 20 := by decide
  rw [f1, f2, f3] at h
  obtain ⟨q1, e1, hl1, _, _⟩ := h
  exact ⟨some_getD _ _ (by decide), by decide, by decide, q1, e1, hl1⟩


/-- C8 (counterexample): the timers 1, 2, 3 and 4 are set in this order to the
deadlines 5, 10, 10 and 20 and form the queue 1, 2, 3, 4, so timer 2 is queued
with an expiration time `<= 10`.  When the watchdog function of timer 1 clears
timer 2, `tmrs_exptimers` with `now = 10` fires 1 and 3 only: timer 2 is due
and does not fire.  The new head reported is 20. -/
theorem exptimers_skips_cleared_timer :
    run_ops minix_i386 8 four_sets (empty_queue minix_i386) = some four_timers ∧
    Linked four_timers.mem four_timers.head [1, 2, 3, 4] ∧
    (four_timers.mem 2).tmr_exp_time ≤ 10 ∧
    (tmrs_exptimers minix_i386 clearing_watchdogs 8 four_timers 10).map Prod.snd
      = some (20, [1, 3]) :=
  ⟨some_getD _ _ (by decide), by decide, by decide, by decide⟩

/-- When the watchdog function of timer 1 sets timer 1 again, to the deadline
15, `tmrs_exptimers` with `now = 10` on the queue 1, 2, 3, 4 with the deadlines
5, 10, 10 and 20 fires 1, 2, 3, reports the new head 15, and leaves the queue
1, 4: the timers left are not only those that were not due. -/
theorem exptimers_rearmed_timer_stays :
    (tmrs_exptimers minix_i386 rearming_watchdogs 8 four_timers 10).map Prod.snd
      = some (15, [1, 2, 3]) ∧
    ∃ q1 r, tmrs_exptimers minix_i386 rearming_watchdogs 8 four_timers 10 = some (q1, r) ∧
      Linked q1.mem q1.head [1, 4] := by
  refine ⟨by decide, ?_⟩
  have h1 : (tmrs_exptimers minix_i386 rearming_watchdogs 8 four_timers 10).isSome = true := by
    decide
  obtain ⟨x, hx⟩ := Option.isSome_iff_exists.mp h1
  have h2 : (tmrs_exptimers minix_i386 rearming_watchdogs 8 four_timers 10).all
      (fun y => decide (Linked y.1.mem y.1.head [1, 4])) = true := by decide
  rw [hx] at h2
  exact ⟨x.1, x.2, hx, by simpa using h2⟩

/-! ## The conversion of numbers -/

theorem x2c_digit (base v : Int) (hb : base ≤ 16) (h0 : 0 ≤ v) (h1 : v < base) :
    x2c.getD v.toNat 0 ∈ x2c.take base.toNat ∧ digit_value (x2c.getD v.toNat 0) = v ∧
      (v ≠ 0 → x2c.getD v.toNat 0 ≠ 48) := by
  obtain ⟨i, rfl⟩ : ∃ i : Nat, v = i := ⟨v.toNat, (Int.toNat_of_nonneg h0).symm⟩
  obtain ⟨b, rfl⟩ : ∃ b : Nat, base = b := ⟨base.toNat, (Int.toNat_of_nonneg (by omega)).symm⟩
  have hi : i < b := by exact_mod_cast h1
  have hb16 : b ≤ 16 := by exact_mod_cast hb
  simp only [Int.toNat_ofNat]
  have hlen : i < x2c.length := by
    have : x2c.length = 17 := rfl
    omega
  refine ⟨?_, ?_, ?_⟩
  · rw [List.getD_eq_getElem _ _ hlen]
    have h2 : i < (x2c.take b).length := by
      rw [List.length_take]
      exact lt_min hi hlen
    have h3 : (x2c.take b)[i] = x2c[i] := List.getElem_take x2c
    rw [← h3]
    exact List.getElem_mem h2
  · have : i < 16 := by omega
    interval_cases i <;> decide
  · intro hne
    have h16 : i < 16 := by omega
    have hpos : i ≠ 0 := fun e => hne (by rw [e]; rfl)
    interval_cases i <;> first | exact absurd rfl hpos | decide

theorem read_back_snoc (base : Int) (ds : List Int) (c : Int) :
    read_back base (ds ++ [c]) = read_back base ds * base + digit_value c := by
  unfold read_back
  rw [List.foldl_append]
  rfl

theorem number_loop_digits (base : Int) (hb2 : 2 ≤ base) (hb16 : base ≤ 16) :
    ∀ (s : Nat) (u : Int) (out : List Int), 0 ≤ u → u < base ^ s → 1 ≤ s →
    ∃ ds, number_loop base s u out = .ok (ds ++ out) ∧ canonical base u ds ∧
      1 ≤ ds.length ∧ ds.length ≤ s := by
  intro s
  induction s with
  | zero =>
    intro u out _ _ h2
    omega
  | succ s ih =>
    intro u out h0 h1 _
    have hm0 : 0 ≤ u % base := Int.emod_nonneg _ (by omega)
    have hm1 : u % base < base := Int.emod_lt_of_pos _ (by omega)
    obtain ⟨d1, d2, d3⟩ := x2c_digit base (u % base) hb16 hm0 hm1
    have hdiv : base * (u / base) + u % base = u := Int.ediv_add_emod u base
    have hq0 : 0 ≤ u / base := Int.ediv_nonneg h0 (by omega)
    unfold number_loop
    simp only []
    by_cases hq : u / base > 0
    · rw [if_pos hq]
      have hlt : u / base < base ^ s := by
        apply Int.ediv_lt_of_lt_mul (by omega)
        rw [pow_succ] at h1
        exact h1
      have hs : 1 ≤ s := by
        rcases Nat.eq_zero_or_pos s with h | h
        · rw [h] at hlt
          simp at hlt
          omega
        · exact h
      obtain ⟨ds, e, ⟨c1, c2, _, c4⟩, l1, l2⟩ :=
        ih (u / base) (x2c.getD (u % base).toNat 0 :: out) hq0 hlt hs
      refine ⟨ds ++ [x2c.getD (u % base).toNat 0], ?_, ⟨?_, ?_, ?_, ?_⟩, ?_, ?_⟩
      · rw [e]
        simp
      · intro c hc
        rcases List.mem_append.mp hc with h | h
        · exact c1 c h
        · rw [List.mem_singleton.mp h]
          exact d1
      · rw [read_back_snoc, c2, d2]
        linarith
      · intro hu
        rw [hu] at hq
        simp at hq
      · intro _
        have hne : u / base ≠ 0 := by omega
        cases ds with
        | nil => simp at l1
        | cons a ds =>
          have := c4 hne
          simpa using this
      · simp
      · simp
        omega
    · rw [if_neg hq]
      have hz : u / base = 0 := by omega
      have hu : u % base = u := by
        rw [hz] at hdiv
        linarith
      refine ⟨[x2c.getD (u % base).toNat 0], rfl, ⟨?_, ?_, ?_, ?_⟩, by simp, by simp⟩
      · intro c hc
        rw [List.mem_singleton.mp hc]
        exact d1
      · show (0 : Int) * base + digit_value (x2c.getD (u % base).toNat 0) = u
        rw [d2, hu]
        ring
      · intro h
        rw [hu, h]
        rfl
      · intro h
        have h3 := d3 (by rw [hu]; exact h)
        simpa using h3

theorem number_digits (C : Config) (u base : Int) (hb : base = 10 ∨ base = 16) (h0 : 0 ≤ u)
    (h1 : u < 2 ^ C.LONG_BITS) :
    ∃ ds, number C u base = .ok (ds ++ [0]) ∧ canonical base u ds ∧
      ds.length ≤ sizeof_ascii C - 1 := by
  have hb8 : 8 ≤ base := by rcases hb with h | h <;> omega
  have hb16 : base ≤ 16 := by rcases hb with h | h <;> omega
  obtain ⟨ds, e, hc, _, hl⟩ := number_loop_digits base (by omega) hb16 (sizeof_ascii C - 1) u [0]
    h0 (lt_of_lt_of_le h1 (ascii_holds_long C base hb8)) (by unfold sizeof_ascii; omega)
  exact ⟨ds, e, hc, hl⟩

/-- C12: for every `unsigned long` value `u`, the string that `kprintf` builds
for `%u` (base 10) and for `%x` (base 16) is the canonical representation of
`u` in that base, followed by the terminator: the digits are among the first
10 or 16 characters of "0123456789ABCDEF", the most significant one comes
first (read back in the base they give `u`), the string is "0" for `u = 0` and
has no leading zero otherwise. -/
theorem digits_are_canonical (C : Config) (key u : Int) (rest : List Arg) (negative : Bool)
    (hkey : key = 117 ∨ key = 120) (h0 : 0 ≤ u) (h1 : u < 2 ^ C.LONG_BITS) :
    ∃ ds, directive C key (Arg.ulong u :: rest) negative = .ok (ds ++ [0], rest, negative) ∧
      canonical (if key = 117 then 10 else 16) u ds := by
  rcases hkey with hk | hk
  · subst hk
    obtain ⟨ds, e, hc, _⟩ := number_digits C u 10 (Or.inl rfl) h0 h1
    refine ⟨ds, ?_, by simpa using hc⟩
    unfold directive
    simp [e]
  · subst hk
    obtain ⟨ds, e, hc, _⟩ := number_digits C u 16 (Or.inr rfl) h0 h1
    refine ⟨ds, ?_, by simpa using hc⟩
    unfold directive
    simp [e]

theorem digits_are_canonical_witness :
    ((120 : Int) = 117 ∨ (120 : Int) = 120) ∧ (0 : Int) ≤ 255 ∧
    (255 : Int) < 2 ^ minix_i386.LONG_BITS ∧
    ∃ ds, directive minix_i386 120 (Arg.ulong 255 :: []) false = .ok (ds ++ [0], [], false) ∧
      canonical (if (120 : Int) = 117 then 10 else 16) 255 ds :=
  ⟨by decide, by decide, by decide,
    digits_are_canonical minix_i386 120 255 [] false (by decide) (by decide) (by decide)⟩

/-- C16: for every `unsigned long` value `u` and base 10 or 16, whatever the
size of `long` (4 and 8 bytes included), the conversion loop ends without a
write in front of `ascii`: the digits it writes, followed by the terminator,
are at most `sizeof(ascii) - 1 = 8 * sizeof(long) / 3 + 1`. -/
theorem ascii_never_overrun (C : Config) (u base : Int) (hb : base = 10 ∨ base = 16)
    (h0 : 0 ≤ u) (h1 : u < 2 ^ C.LONG_BITS) :
    ∃ ds, number C u base = .ok (ds ++ [0]) ∧ ds.length ≤ sizeof_ascii C - 1 ∧
      sizeof_ascii C - 1 = 8 * C.sizeof_long / 3 + 1 := by
  obtain ⟨ds, e, _, hl⟩ := number_digits C u base hb h0 h1
  exact ⟨ds, e, hl, by unfold sizeof_ascii; omega⟩

theorem ascii_never_overrun_witness :
    ((10 : Int) = 10 ∨ (10 : Int) = 16) ∧ (0 : Int) ≤ 18446744073709551615 ∧
    (18446744073709551615 : Int) < 2 ^ lp64.LONG_BITS ∧
    ∃ ds, number lp64 18446744073709551615 10 = .ok (ds ++ [0]) ∧
      ds.length ≤ sizeof_ascii lp64 - 1 ∧
      sizeof_ascii lp64 - 1 = 8 * lp64.sizeof_long / 3 + 1 :=
  ⟨by decide, by decide, by decide,
    ascii_never_overrun lp64 18446744073709551615 10 (by decide) (by decide) (by decide)⟩

/-! ## The message buffer -/

/-- C14: for every state that satisfies the invariant of the buffer
(`0 <= km_next < KMESS_BUF_SIZE` and `0 <= km_size <= KMESS_BUF_SIZE`) and
every `c`, the end marker included, `kputc(c)` returns without a store outside
`km_buf`, and the state after it satisfies the invariant again. -/
theorem kputc_keeps_invariant (C : Config) (c : Int) (k : Kernel) (h : kmess_inv C k) :
    ∃ k1, kputc C c k = .ok k1 ∧ kmess_inv C k1 := by
  unfold kputc
  by_cases hc : c ≠ END_OF_KMESS
  · rw [if_pos hc, if_pos h.1]
    refine ⟨_, rfl, ⟨?_, ?_⟩, ?_⟩
    · exact Int.emod_nonneg _ (by have := h.1; omega)
    · exact Int.emod_lt_of_pos _ (by have := h.1; omega)
    · show 0 ≤ (if k.kmess.km_size < C.KMESS_BUF_SIZE then k.kmess.km_size + 1
          else k.kmess.km_size) ∧
        (if k.kmess.km_size < C.KMESS_BUF_SIZE then k.kmess.km_size + 1
          else k.kmess.km_size) ≤ C.KMESS_BUF_SIZE
      have := h.2
      split <;> omega
  · rw [if_neg hc]
    exact ⟨_, rfl, h⟩

theorem kputc_keeps_invariant_witness :
    kmess_inv minix_i386 Kernel.init ∧
    ∃ k1, kputc minix_i386 65 Kernel.init = .ok k1 ∧ kmess_inv minix_i386 k1 :=
  ⟨by decide, kputc_keeps_invariant minix_i386 65 Kernel.init (by decide)⟩

theorem kputc_seq_snoc (C : Config) (c : Int) : ∀ (cs : List Int) (k : Kernel),
    kputc_seq C (cs ++ [c]) k
      = match kputc_seq C cs k with
        | .ok k1 => kputc C c k1
        | .error e => .error e := by
  intro cs
  induction cs with
  | nil =>
    intro k
    simp only [List.nil_append, kputc_seq]
    cases kputc C c k <;> rfl
  | cons a cs ih =>
    intro k
    simp only [List.cons_append, kputc_seq]
    cases kputc C a k with
    | error e => rfl
    | ok k1 => exact ih k1

theorem to_char_id (C : Config) (c : Int) (h : is_char C c) : to_char C c = c := by
  unfold to_char
  unfold is_char at h
  cases hs : C.char_signed
  · rw [hs] at h
    simp only [Bool.false_eq_true, if_false] at h ⊢
    unfold wrap_unsigned
    exact Int.emod_eq_of_lt h.1 (by norm_num; omega)
  · rw [hs] at h
    simp only [if_true] at h ⊢
    exact wrap_signed_id 8 (by norm_num) c (by norm_num; omega) (by norm_num; omega)

theorem emod_sub_emod_left (a j K : Int) : (a % K - j) % K = (a - j) % K := by
  rw [Int.sub_emod, Int.emod_emod, ← Int.sub_emod]

theorem emod_ne_of_lt (n d K : Int) (h0 : 0 < d) (h1 : d < K) : (n - d) % K ≠ n % K := by
  intro h
  have h2 : (n - (n - d)) % K = 0 := by
    rw [Int.sub_emod, h]
    simp
  have h3 : n - (n - d) = d := by ring
  rw [h3, Int.emod_eq_of_lt (by omega) h1] at h2
  omega

theorem kputc_seq_state (C : Config) (k : Kernel) (hK : 0 < C.KMESS_BUF_SIZE)
    (hn : k.kmess.km_next = 0) (hs : k.kmess.km_size = 0) :
    ∀ cs : List Int, (∀ c ∈ cs, c ≠ END_OF_KMESS ∧ is_char C c) →
    ∃ k1, kputc_seq C cs k = .ok k1 ∧
      k1.kmess.km_size = min (cs.length : Int) C.KMESS_BUF_SIZE ∧
      k1.kmess.km_next = (cs.length : Int) % C.KMESS_BUF_SIZE ∧
      ∀ j : Nat, 1 ≤ j → (j : Int) ≤ min (cs.length : Int) C.KMESS_BUF_SIZE →
        cs.reverse[j - 1]?
          = some (k1.kmess.km_buf ((k1.kmess.km_next - j) % C.KMESS_BUF_SIZE).toNat) := by
  intro cs
  induction cs using List.reverseRecOn with
  | nil =>
    intro _
    refine ⟨k, rfl, ?_, ?_, ?_⟩
    · rw [hs]
      simp [min_def]
      omega
    · rw [hn]
      simp
    · intro j h1 h2
      simp only [List.length_nil, Nat.cast_zero] at h2
      have : min (0 : Int) C.KMESS_BUF_SIZE = 0 := by simp [min_def]; omega
      omega
  | append_singleton cs c ih =>
    intro hc
    have hcs : ∀ x ∈ cs, x ≠ END_OF_KMESS ∧ is_char C x :=
      fun x hx => hc x (List.mem_append_left _ hx)
    have hcc := hc c (List.mem_append_right _ (List.mem_singleton.mpr rfl))
    obtain ⟨k1, e1, s1, n1, b1⟩ := ih hcs
    have hm0 : 0 ≤ (cs.length : Int) % C.KMESS_BUF_SIZE := Int.emod_nonneg _ (by omega)
    have hm1 : (cs.length : Int) % C.KMESS_BUF_SIZE < C.KMESS_BUF_SIZE :=
      Int.emod_lt_of_pos _ hK
    have hidx : 0 ≤ k1.kmess.km_next ∧ k1.kmess.km_next < C.KMESS_BUF_SIZE := by
      rw [n1]; exact ⟨hm0, hm1⟩
    have hstep : kputc C c k1 = .ok
        { k1 with
          kmess := { km_buf := fun i => if i = k1.kmess.km_next.toNat then to_char C c
                                        else k1.kmess.km_buf i,
                     km_size := if k1.kmess.km_size < C.KMESS_BUF_SIZE
                                then k1.kmess.km_size + 1 else k1.kmess.km_size,
                     km_next := (k1.kmess.km_next + 1) % C.KMESS_BUF_SIZE },
          trace := k1.trace ++ [Event.put c] } := by
      unfold kputc
      rw [if_pos hcc.1, if_pos hidx]
    refine ⟨_, by rw [kputc_seq_snoc, e1]; exact hstep, ?_, ?_, ?_⟩
    · show (if k1.kmess.km_size < C.KMESS_BUF_SIZE then k1.kmess.km_size + 1
        else k1.kmess.km_size) = _
      rw [s1]
      simp only [List.length_append, List.length_singleton, Nat.cast_add, Nat.cast_one, min_def]
      split_ifs <;> omega
    · show (k1.kmess.km_next + 1) % C.KMESS_BUF_SIZE = _
      rw [n1, Int.emod_add_emod]
      simp
    · intro j h1 h2
      show (cs ++ [c]).reverse[j - 1]?
        = some (if (((k1.kmess.km_next + 1) % C.KMESS_BUF_SIZE - j) % C.KMESS_BUF_SIZE).toNat
                    = k1.kmess.km_next.toNat
                then to_char C c
                else k1.kmess.km_buf
                  (((k1.kmess.km_next + 1) % C.KMESS_BUF_SIZE - j) % C.KMESS_BUF_SIZE).toNat)
      have hlen : min (((cs ++ [c]).length : Nat) : Int) C.KMESS_BUF_SIZE
          ≤ (cs.length : Int) + 1 ∧
          min (((cs ++ [c]).length : Nat) : Int) C.KMESS_BUF_SIZE ≤ C.KMESS_BUF_SIZE := by
        simp only [List.length_append, List.length_singleton, Nat.cast_add, Nat.cast_one]
        exact ⟨min_le_left _ _, min_le_right _ _⟩
      have hpos : ((k1.kmess.km_next + 1) % C.KMESS_BUF_SIZE - j) % C.KMESS_BUF_SIZE
          = ((cs.length : Int) - ((j : Int) - 1)) % C.KMESS_BUF_SIZE := by
        rw [emod_sub_emod_left, n1]
        have : (cs.length : Int) % C.KMESS_BUF_SIZE + 1 - j
            = (cs.length : Int) % C.KMESS_BUF_SIZE - ((j : Int) - 1) := by ring
        rw [this, emod_sub_emod_left]
      rw [hpos, List.reverse_append, List.reverse_singleton, List.singleton_append]
      obtain ⟨d, rfl⟩ : ∃ d, j = d + 1 := ⟨j - 1, by omega⟩
      simp only [Nat.add_sub_cancel, Nat.cast_add, Nat.cast_one, add_sub_cancel_right]
      cases d with
      | zero =>
        simp only [Nat.cast_zero, sub_zero, List.getElem?_cons_zero]
        rw [n1, if_pos rfl, to_char_id C c hcc.2]
      | succ d =>
        have hd0 : (0 : Int) < ((d + 1 : Nat) : Int) := by positivity
        have hdK : ((d + 1 : Nat) : Int) < C.KMESS_BUF_SIZE := by
          push_cast at h2 ⊢
          omega
        have hne : (((cs.length : Int) - ((d + 1 : Nat) : Int)) % C.KMESS_BUF_SIZE).toNat
            ≠ k1.kmess.km_next.toNat := by
          intro h
          rw [n1] at h
          have h3 := emod_ne_of_lt (cs.length : Int) ((d + 1 : Nat) : Int) C.KMESS_BUF_SIZE hd0 hdK
          apply h3
          have a0 : 0 ≤ ((cs.length : Int) - ((d + 1 : Nat) : Int)) % C.KMESS_BUF_SIZE :=
            Int.emod_nonneg _ (by omega)
          rw [← Int.toNat_of_nonneg a0, ← Int.toNat_of_nonneg hm0, h]
        rw [if_neg hne, List.getElem?_cons_succ]
        have hj : ((d + 1 : Nat) : Int) ≤ min (cs.length : Int) C.KMESS_BUF_SIZE := by
          apply le_min
          · push_cast at h2 ⊢
            omega
          · omega
        have hb := b1 (d + 1) (by omega) hj
        simp only [Nat.add_sub_cancel] at hb
        rw [hb, n1, emod_sub_emod_left]

/-- C13: starting from an empty message buffer (`km_next = 0`, `km_size = 0`),
after `kputc` has been called with any sequence of `n` characters, none of them
END_OF_KMESS, all calls have returned, `km_size = min(n, KMESS_BUF_SIZE)`,
`km_next = n mod KMESS_BUF_SIZE`, and the buffer holds the last
`min(n, KMESS_BUF_SIZE)` characters written, the `j`-th most recent one at
index `(km_next - j) mod KMESS_BUF_SIZE`. -/
theorem kputc_fills_buffer (C : Config) (k : Kernel) (cs : List Int)
    (hK : 0 < C.KMESS_BUF_SIZE) (hn : k.kmess.km_next = 0) (hs : k.kmess.km_size = 0)
    (hc : ∀ c ∈ cs, c ≠ END_OF_KMESS ∧ is_char C c) :
    ∃ k1, kputc_seq C cs k = .ok k1 ∧
      k1.kmess.km_size = min (cs.length : Int) C.KMESS_BUF_SIZE ∧
      k1.kmess.km_next = (cs.length : Int) % C.KMESS_BUF_SIZE ∧
      ∀ j : Nat, 1 ≤ j → (j : Int) ≤ min (cs.length : Int) C.KMESS_BUF_SIZE →
        cs.reverse[j - 1]?
          = some (k1.kmess.km_buf ((k1.kmess.km_next - j) % C.KMESS_BUF_SIZE).toNat) :=
  kputc_seq_state C k hK hn hs cs hc

theorem kputc_fills_buffer_witness :
    (0 : Int) < minix_i386.KMESS_BUF_SIZE ∧ Kernel.init.kmess.km_next = 0 ∧
    Kernel.init.kmess.km_size = 0 ∧
    (∀ c ∈ [(72 : Int), 105], c ≠ END_OF_KMESS ∧ is_char minix_i386 c) ∧
    ∃ k1, kputc_seq minix_i386 [72, 105] Kernel.init = .ok k1 ∧
      k1.kmess.km_size = min (([72, 105] : List Int).length : Int) minix_i386.KMESS_BUF_SIZE ∧
      k1.kmess.km_next = (([72, 105] : List Int).length : Int) % minix_i386.KMESS_BUF_SIZE ∧
      ∀ j : Nat, 1 ≤ j →
        (j : Int) ≤ min (([72, 105] : List Int).length : Int) minix_i386.KMESS_BUF_SIZE →
        ([72, 105] : List Int).reverse[j - 1]?
          = some (k1.kmess.km_buf
              ((k1.kmess.km_next - j) % minix_i386.KMESS_BUF_SIZE).toNat) :=
  ⟨by decide, rfl, rfl, by decide,
    kputc_fills_buffer minix_i386 Kernel.init [72, 105] (by decide) rfl rfl (by decide)⟩

/-! ## The scan of the format and `%d` -/

theorem fault_of_error (r : Except Fault Kernel) (f : Fault)
    (h : (match r with | .ok _ => none | .error e => some e) = some f) : r = .error f := by
  cases r with
  | ok k => simp at h
  | error e =>
    simp only [Option.some.injEq] at h
    rw [h]

/-- C15 (failing input): for the format "%" the `switch` takes the terminator
as the key, and the scan goes on behind it.  When the object of the format
ends with the terminator, this is a read outside it; when the characters "X"
and a second terminator follow, the `X` is read and printed. -/
theorem kprintf_reads_past_terminator :
    kprintf minix_i386 (cstr "%") [] Kernel.init = .error Fault.fmt_overrun ∧
    ∃ k1, kprintf minix_i386 [37, 0, 88, 0] [] Kernel.init = .ok k1 ∧
      k1.trace = [Event.put 37, Event.put 88, Event.send_sig 4 29] :=
  ⟨fault_of_error _ _ (by decide), ok_of_trace _ _ (by decide)⟩

theorem c_string_digits (ds : List Int) (h : ∀ c ∈ ds, c ≠ 0) : c_string (ds ++ [0]) = ds := by
  unfold c_string
  induction ds with
  | nil => simp
  | cons a ds ih =>
    have ha : a ≠ 0 := h a (List.mem_cons_self _ _)
    rw [List.cons_append, List.takeWhile_cons_of_pos (by simpa using ha),
      ih (fun c hc => h c (List.mem_cons_of_mem _ hc))]

theorem decimal_digit_plain (c : Int) (h : c ∈ x2c.take (10 : Int).toNat) :
    c ≠ 0 ∧ c ≠ END_OF_KMESS := by
  revert c
  decide

/-- The value the case `d` hands to the conversion is the absolute value of
`d`, provided `long` is at least as wide as `int`, and as wide as `int` when
`d` is the most negative `int`. -/
theorem abs_of_int (C : Config) (d : Int) (hpos : 0 < C.sizeof_int)
    (hle : C.sizeof_int ≤ C.sizeof_long) (hd : is_int C d)
    (hmin : d = -(2 ^ (C.INT_BITS - 1)) → C.sizeof_long = C.sizeof_int) :
    (if d < 0 then wrap_unsigned C.LONG_BITS (wrap_signed C.INT_BITS (-d))
      else wrap_unsigned C.LONG_BITS d) = |d| ∧ |d| < 2 ^ C.LONG_BITS := by
  have hw : 0 < C.INT_BITS := by unfold Config.INT_BITS; omega
  have hwl : C.INT_BITS ≤ C.LONG_BITS := by unfold Config.INT_BITS Config.LONG_BITS; omega
  have h2 := two_pow_pred C.INT_BITS hw
  have hp : (0 : Int) < 2 ^ (C.INT_BITS - 1) := by positivity
  have hmono : (2 : Int) ^ C.INT_BITS ≤ 2 ^ C.LONG_BITS :=
    pow_le_pow_right₀ (by norm_num) hwl
  obtain ⟨hd0, hd1⟩ := hd
  unfold wrap_unsigned
  by_cases hneg : d < 0
  · rw [if_pos hneg, abs_of_neg hneg]
    by_cases hm : d = -(2 ^ (C.INT_BITS - 1))
    · have hsz := hmin hm
      have hbits : C.LONG_BITS = C.INT_BITS := by
        unfold Config.INT_BITS Config.LONG_BITS; rw [hsz]
      rw [hbits, hm]
      have e1 : wrap_signed C.INT_BITS (- -(2 ^ (C.INT_BITS - 1))) = -(2 ^ (C.INT_BITS - 1)) := by
        unfold wrap_signed
        rw [neg_neg, ← two_mul, ← h2, Int.emod_self]
        ring
      rw [e1, neg_neg]
      refine ⟨?_, by omega⟩
      rw [← Int.add_emod_self, Int.emod_eq_of_lt (by omega) (by omega)]
      omega
    · have hlt : -(2 ^ (C.INT_BITS - 1)) < d := lt_of_le_of_ne hd0 (Ne.symm hm)
      rw [wrap_signed_id C.INT_BITS hw (-d) (by omega) (by omega)]
      exact ⟨Int.emod_eq_of_lt (by omega) (by omega), by omega⟩
  · rw [if_neg hneg, abs_of_nonneg (by omega)]
    exact ⟨Int.emod_eq_of_lt (by omega) (by omega), by omega⟩

/-- What `kprintf("%d", d)` does once the string for `d` is known: the sign if
the flag is set, the digits, the notification. -/
theorem kprintf_d_trace (C : Config) (d : Int) (k : Kernel) (ds : List Int) (neg : Bool)
    (hk : index_ok C k) (hplain : ∀ c ∈ ds, c ≠ 0 ∧ c ≠ END_OF_KMESS)
    (hdir : directive C 100 [Arg.int d] false = .ok (ds ++ [0], [], neg)) :
    ∃ k1 : Kernel, kprintf C [37, 100, 0] [Arg.int d] k = .ok k1 ∧
      k1.trace = k.trace ++ ((if neg then [45] else []) ++ ds).map Event.put ++
        [Event.send_sig C.OUTPUT_PROC_NR C.SIGKMESS] := by
  obtain ⟨k1, eo, t1, i1, _⟩ := output_ok C neg (ds ++ [0]) k hk (by simp)
  obtain ⟨k2, e2, t2, _, _⟩ := kputc_ok C END_OF_KMESS k1 i1
  have hloop : kprintf_loop C [37, 100, 0] [Arg.int d] false k = .ok k1 := by
    have h1 : kprintf_loop C [37, 100, 0] [Arg.int d] false k
        = (match directive C 100 [Arg.int d] false with
          | .ok (s, argp1, negative1) =>
            match output C negative1 s k with
            | .ok k1 => kprintf_loop C [0] argp1 negative1 k1
            | .error e => .error e
          | .error e => .error e) := rfl
    rw [h1, hdir]
    simp only []
    rw [eo]
    rfl
  refine ⟨k2, ?_, ?_⟩
  · unfold kprintf
    rw [hloop]
    exact e2
  · rw [t2, t1, c_string_digits ds (fun c hc => (hplain c hc).1)]
    have hfree : ∀ x ∈ (if neg then [(45 : Int)] else []) ++ ds, x ≠ END_OF_KMESS := by
      intro x hx
      rcases List.mem_append.mp hx with h | h
      · cases neg
        · simp at h
        · simp only [if_true, List.mem_singleton] at h
          rw [h]
          decide
      · exact (hplain x h).2
    rw [map_kputc_event_of_free C _ hfree]
    simp [kputc_event, END_OF_KMESS]

/-- Where `long` is at least as wide as `int` and, for the most negative `int`,
as wide as `int` (as on the 32 bit kernel), `kprintf("%d", d)` returns and emits
the decimal representation of `d`: a `-` followed by the canonical decimal
digits of `|d|` when `d < 0`, these digits without a sign when `d >= 0`; then it
notifies the output driver. -/
theorem kprintf_decimal (C : Config) (d : Int) (k : Kernel) (hk : index_ok C k)
    (hpos : 0 < C.sizeof_int) (hle : C.sizeof_int ≤ C.sizeof_long) (hd : is_int C d)
    (hmin : d = -(2 ^ (C.INT_BITS - 1)) → C.sizeof_long = C.sizeof_int) :
    ∃ (k1 : Kernel) (ds : List Int), kprintf C [37, 100, 0] [Arg.int d] k = .ok k1 ∧
      canonical 10 |d| ds ∧
      k1.trace = k.trace ++ ((if d < 0 then [45] else []) ++ ds).map Event.put ++
        [Event.send_sig C.OUTPUT_PROC_NR C.SIGKMESS] := by
  obtain ⟨hu, hlt⟩ := abs_of_int C d hpos hle hd hmin
  obtain ⟨ds, en, hcan, _⟩ := number_digits C |d| 10 (Or.inl rfl) (abs_nonneg d) hlt
  have hplain : ∀ c ∈ ds, c ≠ 0 ∧ c ≠ END_OF_KMESS :=
    fun c hc => decimal_digit_plain c (hcan.1 c hc)
  have hdir : directive C 100 [Arg.int d] false = .ok (ds ++ [0], [], decide (d < 0)) := by
    unfold directive
    simp only [if_true]
    by_cases hneg : d < 0
    · rw [if_pos hneg] at hu
      rw [if_pos hneg, hu, en]
      simp [hneg]
    · rw [if_neg hneg] at hu
      rw [if_neg hneg, hu, en]
      simp [hneg]
  obtain ⟨k1, e1, t1⟩ := kprintf_d_trace C d k ds (decide (d < 0)) hk hplain hdir
  refine ⟨k1, ds, e1, hcan, ?_⟩
  rw [t1]
  have hsign : (if decide (d < 0) = true then [(45 : Int)] else [])
      = (if d < 0 then [45] else []) := by
    by_cases hneg : d < 0 <;> simp [hneg]
  rw [hsign]

/-- C11 (failing input): with an `int` of 32 and a `long` of 64 bits,
`kprintf("%d", d)` for the most negative `int`, -2147483648, emits
"-18446744071562067968": the negation `-d` is done in `int`, where it gives
`d` again, and the conversion to `unsigned long` then yields
`2 ^ 64 - 2 ^ 31`. -/
theorem kprintf_most_negative_lp64 :
    is_int lp64 (-2147483648) ∧
    ∃ k1 : Kernel, kprintf lp64 [37, 100, 0] [Arg.int (-2147483648)] Kernel.init = .ok k1 ∧
      k1.trace = ([45, 49, 56, 52, 52, 54, 55, 52, 52, 48, 55, 49, 53, 54, 50, 48, 54, 55,
          57, 54, 56] : List Int).map Event.put ++ [Event.send_sig 4 29] :=
  ⟨by decide,
    kprintf_d_trace lp64 (-2147483648) Kernel.init
      [49, 56, 52, 52, 54, 55, 52, 52, 48, 55, 49, 53, 54, 50, 48, 54, 55, 57, 54, 56] true
      (by decide) (by decide) rfl⟩

end Minix
